import Mathlib

/-!
# Morton-order matrix and its iterator

A shallow embedding of `exercises/morton-order/step2/matrix.hpp`.

Conventions of the embedding

* `uint32_t` and `uint64_t` values are natural numbers; every arithmetic
  operation the source performs on them is followed by the reduction modulo
  `2^32` or `2^64` of the C++ type it is performed in.
* A `T*` into the buffer of a matrix is the (integer) element offset from the
  first element of that buffer; the null pointer is `none`.  Pointer
  arithmetic itself never faults, only dereferencing does.  Offsets are
  unbounded, so they are the pointers of the machine only while
  `start + rank*rank*sizeof(T)` does not leave the 64-bit address space
  (theorem `steps64_toAddresses`); the section on 64-bit addresses keeps the
  pointers as the machine does, modulo `2^64`.
* An operation that can abort returns `Except Fault _`.
* `new T[n]` yields `n` elements whose values are given by a function
  `uninit` from the slot number (indeterminate contents).
-/

namespace morton

/-- Reasons for which an operation of the embedding yields no value. -/
inductive Fault where
  /-- An `assert(...)` of the source evaluated to false. -/
  | assertion
  /-- A dereference outside the buffer, or through the null pointer. -/
  | undefined
  /-- The step budget of a modelled loop ran out (never a behaviour of the program). -/
  | fuel
  deriving DecidableEq, Repr

/-! ## Machine arithmetic -/

/-- Product of two `uint32_t` values, computed in `uint32_t`. -/
def mul32 (a b : Nat) : Nat := (a * b) % 2 ^ 32

/-- Product of two values converted to `uint64_t`, computed in `uint64_t`. -/
def mul64 (a b : Nat) : Nat := (a * b) % 2 ^ 64

/-- Difference of two `uint32_t` values, computed in `uint32_t` (wraps below zero). -/
def sub32 (a b : Nat) : Nat := (a + 2 ^ 32 - b % 2 ^ 32) % 2 ^ 32

/-! ## Morton codec -/

/-- Modelled from the spec: `bits.hpp`, which defines `encode` and `decode`, is
not among the sources.  Interleaves the low `n` bits of `a` and `b`, one bit
from each, alternating, `a` contributing the least-significant bit. -/
def interleave : Nat → Nat → Nat → Nat
  | 0, _, _ => 0
  | n + 1, a, b => a % 2 + 2 * (b % 2) + 4 * interleave n (a / 2) (b / 2)

/-- Modelled from the spec: `bits.hpp` is not among the sources.  Splits the low
`2 * n` bits of `z` into the bits at even positions and the bits at odd
positions, the exact inverse of `interleave`. -/
def deinterleave : Nat → Nat → Nat × Nat
  | 0, _ => (0, 0)
  | n + 1, z =>
    (z % 2 + 2 * (deinterleave n (z / 4)).1, z / 2 % 2 + 2 * (deinterleave n (z / 4)).2)

/-- Modelled from the spec: `encode(row: uint32, col: uint32) -> offset: uint64`
of the missing `bits.hpp`, the bit interleaving of its two 32-bit arguments. -/
def encode (row col : Nat) : Nat := interleave 32 row col

/-- Modelled from the spec: `decode(offset: uint64) -> (row, col)` of the missing
`bits.hpp`, the exact inverse of `encode`; the source calls it as
`decode(z, x, y)` and the pair returned here is `(x, y)`. -/
def decode (z : Nat) : Nat × Nat := deinterleave 32 z

/-! ## The matrix -/

/-- Class `matrix<T>`: the rank (`uint32_t _rank`) and the owned buffer
(`std::unique_ptr<T[]> _data`, `none` when it holds the null pointer). -/
structure matrix (T : Type) where
  _rank : Nat
  _data : Option (List T)

/-- Class `matrix_iterator<T>`: the three pointers `_start`, `_p`, `_end`. -/
structure matrix_iterator where
  _start : Int
  _p : Int
  _end : Int
  deriving DecidableEq, Repr

/-- Result of `new T[n]`: `n` elements of indeterminate value. -/
def newArray {T : Type} (n : Nat) (uninit : Nat → T) : List T :=
  (List.range n).map uninit

/-- Constructor `matrix()`: rank 0, `_data` default-initialised to null. -/
def matrix.matrix_empty {T : Type} : matrix T :=
  { _rank := 0, _data := none }

/-- The check `(r & (r-1)) == 0` of the constructor, on `uint32_t`. -/
def rankCheck (r : Nat) : Bool := r &&& sub32 r 1 == 0

/-- Constructor `matrix(uint32_t r)`: `_rank(r)`, `_data(new T[r*r])` with the
product taken in `uint32_t`, then `assert((r & (r-1)) == 0)`. -/
def matrix.matrix_rank {T : Type} (r : Nat) (uninit : Nat → T) : Except Fault (matrix T) :=
  if rankCheck r then
    .ok { _rank := r, _data := some (newArray (mul32 r r) uninit) }
  else
    .error .assertion

/-- Member `rank()`. -/
def matrix.rank {T : Type} (m : matrix T) : Nat := m._rank

/-- Member `size()`: `uint64_t(_rank) * uint64_t(_rank)`. -/
def matrix.size {T : Type} (m : matrix T) : Nat := mul64 m._rank m._rank

/-- Read of `buf[z]`; outside the buffer the behaviour is undefined. -/
def load {T : Type} (buf : List T) (z : Int) : Except Fault T :=
  if 0 ≤ z then
    match buf.get? z.toNat with
    | some v => .ok v
    | none => .error .undefined
  else .error .undefined

/-- Write `buf[z] = v`; outside the buffer the behaviour is undefined. -/
def store {T : Type} (buf : List T) (z : Int) (v : T) : Except Fault (List T) :=
  if 0 ≤ z ∧ z.toNat < buf.length then .ok (buf.set z.toNat v) else .error .undefined

/-- Const element access `operator()(i, j) const`: `_data[encode(i, j)]`. -/
def matrix.get {T : Type} (m : matrix T) (i j : Nat) : Except Fault T :=
  match m._data with
  | none => .error .undefined
  | some buf => load buf (encode i j)

/-- Mutable element access `operator()(i, j)` used as the target of an
assignment: `_data[encode(i, j)] = v`. -/
def matrix.set {T : Type} (m : matrix T) (i j : Nat) (v : T) : Except Fault (matrix T) :=
  match m._data with
  | none => .error .undefined
  | some buf =>
    match store buf (encode i j) v with
    | .ok buf' => .ok { m with _data := some buf' }
    | .error e => .error e

/-- Member `data()`, that is `_data.get()`: the pointer to the first element
(offset 0 of the buffer), or null. -/
def matrix.data {T : Type} (m : matrix T) : Option Int :=
  match m._data with
  | none => none
  | some _ => some 0

/-! ## The iterator -/

/-- Constructor `matrix_iterator(T* data, uint64_t z, uint32_t rank)`:
`assert(z <= rank*rank)` with the product in `uint32_t`,
`assert(_start != nullptr)`, `_p = _start + z`,
`_end = _start + ((uint64_t) rank * (uint64_t) rank)`.  The sums are sums of
element offsets without the wrap of a 64-bit address; `matrix_iterator64.construct`
is the same constructor on addresses. -/
def matrix_iterator.construct (data : Option Int) (z : Nat) (rank : Nat) :
    Except Fault matrix_iterator :=
  if z ≤ mul32 rank rank then
    match data with
    | none => .error .assertion
    | some s => .ok { _start := s, _p := s + z, _end := s + mul64 rank rank }
  else .error .assertion

/-- Mutable `begin()`: `iterator(_data.get(), 0, _rank)`. -/
def matrix.begin {T : Type} (m : matrix T) : Except Fault matrix_iterator :=
  matrix_iterator.construct m.data 0 m._rank

/-- Mutable `end()`: `iterator(_data.get(), _rank*_rank, _rank)`, the product
taken in `uint32_t`. -/
def matrix.end_ {T : Type} (m : matrix T) : Except Fault matrix_iterator :=
  matrix_iterator.construct m.data (mul32 m._rank m._rank) m._rank

/-- Const `begin()`: `const_iterator(_data.get(), 0, _rank)`. -/
def matrix.begin_const {T : Type} (m : matrix T) : Except Fault matrix_iterator :=
  matrix_iterator.construct m.data 0 m._rank

/-- Const `end()`: `const_iterator(_data.get(), _rank*_rank, _rank)`. -/
def matrix.end_const {T : Type} (m : matrix T) : Except Fault matrix_iterator :=
  matrix_iterator.construct m.data (mul32 m._rank m._rank) m._rank

/-- Storage offset of the cursor: `_p - _start`. -/
def matrix_iterator.offset (it : matrix_iterator) : Int := it._p - it._start

/-- Member `x()`: `z = _p - _start; assert(z >= 0); decode(z, x, y); return x`. -/
def matrix_iterator.x (it : matrix_iterator) : Except Fault Nat :=
  if 0 ≤ it._p - it._start then .ok (decode (it._p - it._start).toNat).1
  else .error .assertion

/-- Member `y()`: `z = _p - _start; assert(z >= 0); decode(z, x, y); return y`. -/
def matrix_iterator.y (it : matrix_iterator) : Except Fault Nat :=
  if 0 ≤ it._p - it._start then .ok (decode (it._p - it._start).toNat).2
  else .error .assertion

/-- Friend `operator==`: `a._p == b._p`. -/
def matrix_iterator.eq (a b : matrix_iterator) : Bool := a._p == b._p

/-- Friend `operator!=`: `!(a == b)`. -/
def matrix_iterator.ne (a b : matrix_iterator) : Bool := !(a.eq b)

/-- Pre-increment `operator++`: `if (_p != _end) _p++`. -/
def matrix_iterator.inc (it : matrix_iterator) : matrix_iterator :=
  if it._p ≠ it._end then { it with _p := it._p + 1 } else it

/-- Pre-decrement `operator--`: `if (_p != _start) _p--`. -/
def matrix_iterator.dec (it : matrix_iterator) : matrix_iterator :=
  if it._p ≠ it._start then { it with _p := it._p - 1 } else it

/-- Dereference `operator*` read from the buffer the iterator points into. -/
def matrix_iterator.deref {T : Type} (it : matrix_iterator) (buf : List T) : Except Fault T :=
  load buf it._p

/-! ## Loops over iterators -/

/-- Algorithm `std::copy(first, last, d_first)` on these iterators:
`for (; first != last; ++d_first, ++first) *d_first = *first;`, reading from
the buffer `src` and writing into the buffer `dst`; returns the written buffer
and the final output iterator.  The first argument bounds the number of
iterations. -/
def copy {T : Type} (src : List T) :
    Nat → matrix_iterator → matrix_iterator → matrix_iterator → List T →
      Except Fault (List T × matrix_iterator)
  | 0, first, last, d_first, dst =>
    if first.ne last then .error .fuel else .ok (dst, d_first)
  | n + 1, first, last, d_first, dst =>
    if first.ne last then
      match first.deref src with
      | .error e => .error e
      | .ok v =>
        match store dst d_first._p v with
        | .error e => .error e
        | .ok dst' => copy src n first.inc last d_first.inc dst'
    else .ok (dst, d_first)

/-- Member `duplicate()`: `matrix ans(_rank); std::copy(begin(), end(),
ans.begin()); return ans;`, with the const `begin()`/`end()` of the source
matrix and the mutable `begin()` of the new one. -/
def matrix.duplicate {T : Type} (m : matrix T) (fuel : Nat) (uninit : Nat → T) :
    Except Fault (matrix T) :=
  match matrix.matrix_rank m._rank uninit with
  | .error e => .error e
  | .ok ans =>
    match m.begin_const, m.end_const, ans.begin with
    | .ok first, .ok last, .ok d_first =>
      match m._data, ans._data with
      | some src, some dst =>
        match copy src fuel first last d_first dst with
        | .ok (dst', _) => .ok { ans with _data := some dst' }
        | .error e => .error e
      | _, _ => .error .undefined
    | .error e, _, _ => .error e
    | .ok _, .error e, _ => .error e
    | .ok _, .ok _, .error e => .error e

/-- Loop `for (; it != last; ++it)` recording, at every position visited, the
storage offset together with `it.x()` and `it.y()`.  The first argument bounds
the number of iterations. -/
def walk : Nat → matrix_iterator → matrix_iterator → Except Fault (List (Int × Nat × Nat))
  | 0, it, last => if it.ne last then .error .fuel else .ok []
  | n + 1, it, last =>
    if it.ne last then
      match it.x, it.y, walk n it.inc last with
      | .ok x, .ok y, .ok rest => .ok ((it.offset, x, y) :: rest)
      | .error e, _, _ => .error e
      | .ok _, .error e, _ => .error e
      | .ok _, .ok _, .error e => .error e
    else .ok []

/-- Loop `for (auto it = m.begin(); it != m.end(); ++it)` over a matrix. -/
def matrix.traverse {T : Type} (m : matrix T) (fuel : Nat) :
    Except Fault (List (Int × Nat × Nat)) :=
  match m.begin, m.end_ with
  | .ok first, .ok last => walk fuel first last
  | .error e, _ => .error e
  | .ok _, .error e => .error e

/-- Repetition `n` times of a step on an iterator. -/
def iterate (f : matrix_iterator → matrix_iterator) : Nat → matrix_iterator → matrix_iterator
  | 0, it => it
  | n + 1, it => iterate f n (f it)

/-- Rank that is a power of two representable in `uint32_t`. -/
def IsPow2Rank (r : Nat) : Prop := ∃ k, k ≤ 31 ∧ r = 2 ^ k

instance decidableIsPow2Rank (r : Nat) : Decidable (IsPow2Rank r) := by
  unfold IsPow2Rank
  infer_instance

/-- State in which `matrix(uint32_t r)` leaves a matrix, kept by element
writes: a 32-bit rank that passes the construction check and a buffer of
`r*r` elements, the product taken in `uint32_t` as in `new T[r*r]`. -/
def matrix.Built {T : Type} (m : matrix T) : Prop :=
  m._rank < 2 ^ 32 ∧ rankCheck m._rank = true ∧
    m._data.map List.length = some (mul32 m._rank m._rank)

instance matrix.decidableBuilt {T : Type} (m : matrix T) : Decidable m.Built := by
  unfold matrix.Built
  infer_instance

/-- Record made by the traversal loop at storage offset `k`. -/
def visitAt (k : Nat) : Int × Nat × Nat := ((k : Int), (decode k).1, (decode k).2)

/-! ## Element access and coordinates with the codec as a parameter

`encode` and `decode` come from `bits.hpp`; the definitions below are the same
members as above with the two functions passed in. -/

/-- Member `x()` for a given `decode`: `z = _p - _start; assert(z >= 0);
decode(z, x, y); return x`. -/
def matrix_iterator.xWith (dec : Nat → Nat × Nat) (it : matrix_iterator) : Except Fault Nat :=
  if 0 ≤ it._p - it._start then .ok (dec (it._p - it._start).toNat).1
  else .error .assertion

/-- Member `y()` for a given `decode`: `z = _p - _start; assert(z >= 0);
decode(z, x, y); return y`. -/
def matrix_iterator.yWith (dec : Nat → Nat × Nat) (it : matrix_iterator) : Except Fault Nat :=
  if 0 ≤ it._p - it._start then .ok (dec (it._p - it._start).toNat).2
  else .error .assertion

/-- One application of `operator++` or of `operator--`. -/
inductive Step where
  | inc
  | dec
  deriving DecidableEq, Repr

/-- Effect of one step on an iterator. -/
def Step.apply : Step → matrix_iterator → matrix_iterator
  | .inc, it => it.inc
  | .dec, it => it.dec

/-- Effect of a finite sequence of pre-increments and pre-decrements, applied
from left to right. -/
def steps : List Step → matrix_iterator → matrix_iterator
  | [], it => it
  | s :: rest, it => steps rest (s.apply it)

/-! ## Moves -/

/-- Defaulted move constructor `matrix(matrix&& other) noexcept = default`:
member-wise move.  `_rank` is a `uint32_t`, whose move is a copy; `_data` is a
`std::unique_ptr<T[]>`, whose move hands the pointer over and leaves the source
null.  Returns the constructed matrix and `other` as the move leaves it. -/
def matrix.move_construct {T : Type} (other : matrix T) : matrix T × matrix T :=
  ({ _rank := other._rank, _data := other._data }, { _rank := other._rank, _data := none })

/-- Defaulted move assignment `operator=(matrix&& other) noexcept = default`
into a matrix `self` distinct from `other`: member-wise move assignment.
Returns `self` and `other` as the assignment leaves them, and the buffer that
`self` owned before, which its `unique_ptr` releases. -/
def matrix.move_assign {T : Type} (self other : matrix T) :
    matrix T × matrix T × Option (List T) :=
  ({ _rank := other._rank, _data := other._data }, { _rank := other._rank, _data := none },
    self._data)

/-! ## The iterator over 64-bit addresses

The iterator above keeps its three pointers as element offsets, which are
unbounded integers.  The definitions of this section keep them as the 64-bit
byte addresses the machine holds: `sz` is `sizeof(T)`, `a` is the address of
the first element of the buffer, the null pointer is the address 0, and
pointer arithmetic is taken modulo `2^64`.  The two agree as long as
`a + rank*rank*sz` stays inside the address space. -/

/-- Pointer `p + k` on a `T*` held as a 64-bit byte address. -/
def ptrAdd (sz p k : Nat) : Nat := (p + k * sz) % 2 ^ 64

/-- Pointer `p - k` on a `T*` held as a 64-bit byte address. -/
def ptrSub (sz p k : Nat) : Nat := (p + 2 ^ 64 - k * sz % 2 ^ 64) % 2 ^ 64

/-- Value of a 64-bit pattern read as a signed number (`int64_t`,
`ptrdiff_t`). -/
def toSigned64 (d : Nat) : Int := if d < 2 ^ 63 then (d : Int) else (d : Int) - 2 ^ 64

/-- Difference `p - q` of two `T*`, a `ptrdiff_t`: the difference of the
addresses as a signed 64-bit number, divided by `sizeof(T)`; the behaviour is
undefined when that difference is not a multiple of `sizeof(T)`. -/
def ptrDiff (sz p q : Nat) : Except Fault Int :=
  if (sz : Int) ∣ toSigned64 ((p + 2 ^ 64 - q % 2 ^ 64) % 2 ^ 64) then
    .ok (Int.tdiv (toSigned64 ((p + 2 ^ 64 - q % 2 ^ 64) % 2 ^ 64)) (sz : Int))
  else .error .undefined

/-- Class `matrix_iterator<T>` with `_start`, `_p`, `_end` as 64-bit byte
addresses. -/
structure matrix_iterator64 where
  _start : Nat
  _p : Nat
  _end : Nat
  deriving DecidableEq, Repr

/-- Member `_data.get()` as an address: `a`, the address `new T[r*r]`
returned, when the matrix holds a buffer, and the null address 0 otherwise. -/
def matrix.data64 {T : Type} (a : Nat) (m : matrix T) : Nat :=
  match m._data with
  | none => 0
  | some _ => a

/-- Constructor `matrix_iterator(T* data, uint64_t z, uint32_t rank)` on
addresses: `assert(z <= rank*rank)` with the product in `uint32_t`,
`assert(_start != nullptr)`, `_p = _start + z`,
`_end = _start + ((uint64_t) rank * (uint64_t) rank)`. -/
def matrix_iterator64.construct (sz : Nat) (data : Nat) (z : Nat) (rank : Nat) :
    Except Fault matrix_iterator64 :=
  if z ≤ mul32 rank rank then
    if data ≠ 0 then
      .ok { _start := data, _p := ptrAdd sz data z, _end := ptrAdd sz data (mul64 rank rank) }
    else .error .assertion
  else .error .assertion

/-- Member `begin()` on addresses: `iterator(_data.get(), 0, _rank)`. -/
def matrix.begin64 {T : Type} (sz a : Nat) (m : matrix T) : Except Fault matrix_iterator64 :=
  matrix_iterator64.construct sz (m.data64 a) 0 m._rank

/-- Member `end()` on addresses: `iterator(_data.get(), _rank*_rank, _rank)`,
the product taken in `uint32_t`. -/
def matrix.end64 {T : Type} (sz a : Nat) (m : matrix T) : Except Fault matrix_iterator64 :=
  matrix_iterator64.construct sz (m.data64 a) (mul32 m._rank m._rank) m._rank

/-- Pre-increment `operator++` on addresses: `if (_p != _end) _p++`. -/
def matrix_iterator64.inc (sz : Nat) (it : matrix_iterator64) : matrix_iterator64 :=
  if it._p ≠ it._end then { it with _p := ptrAdd sz it._p 1 } else it

/-- Pre-decrement `operator--` on addresses: `if (_p != _start) _p--`. -/
def matrix_iterator64.dec (sz : Nat) (it : matrix_iterator64) : matrix_iterator64 :=
  if it._p ≠ it._start then { it with _p := ptrSub sz it._p 1 } else it

/-- Member `x()` on addresses: `int64_t z = _p - _start; assert(z >= 0);
decode(z, x, y); return x`. -/
def matrix_iterator64.x (sz : Nat) (it : matrix_iterator64) : Except Fault Nat :=
  match ptrDiff sz it._p it._start with
  | .error e => .error e
  | .ok z => if 0 ≤ z then .ok (decode z.toNat).1 else .error .assertion

/-- Member `y()` on addresses: `int64_t z = _p - _start; assert(z >= 0);
decode(z, x, y); return y`. -/
def matrix_iterator64.y (sz : Nat) (it : matrix_iterator64) : Except Fault Nat :=
  match ptrDiff sz it._p it._start with
  | .error e => .error e
  | .ok z => if 0 ≤ z then .ok (decode z.toNat).2 else .error .assertion

/-- Friend `operator==` on addresses: `a._p == b._p`. -/
def matrix_iterator64.eq (a b : matrix_iterator64) : Bool := a._p == b._p

/-- Effect of one step on an iterator held as addresses. -/
def Step.apply64 (sz : Nat) : Step → matrix_iterator64 → matrix_iterator64
  | .inc, it => it.inc sz
  | .dec, it => it.dec sz

/-- Effect of a finite sequence of pre-increments and pre-decrements on an
iterator held as addresses, applied from left to right. -/
def steps64 (sz : Nat) : List Step → matrix_iterator64 → matrix_iterator64
  | [], it => it
  | s :: rest, it => steps64 sz rest (s.apply64 sz it)

/-- Addresses of an iterator kept as element offsets, for a buffer at address
`a` with elements of `sz` bytes. -/
def matrix_iterator.toAddresses (sz a : Nat) (it : matrix_iterator) : matrix_iterator64 :=
  { _start := a + it._start.toNat * sz, _p := a + it._p.toNat * sz,
    _end := a + it._end.toNat * sz }

end morton

/-! # Vector exercise

A shallow embedding of `exercises/3-containers/part1/vector_ex.cpp`.  A
`std::vector<int>` is a list of integers, the output stream is the string
written so far. -/

namespace vector_ex

/-- Function `GetEven`: `for (auto num: source) if (num % 2 == 0)
evens.push_back(num);`, with the truncating remainder of C++. -/
def GetEven (source : List Int) : List Int :=
  source.foldl (fun evens num => if Int.tmod num 2 = 0 then evens ++ [num] else evens) []

/-- Uses of the vector by one run of `PrintVectorOfInt`, each with the
position it concerns (0 is `data.begin()`). -/
inductive Access where
  /-- Dereference `*it`. -/
  | deref (pos : Int)
  /-- Formation of the iterator `data.end()-1`, used in a comparison only. -/
  | endMinusOne (pos : Int)
  deriving DecidableEq, Repr

/-- Loop `for (auto it = data.begin(); it != data.end(); ++it)` of
`PrintVectorOfInt` on a vector of `n` elements, with `it` at position `i` and
the elements from `it` on as the list argument: `if (it == data.end()-1)
output << std::to_string(*it); else output << std::to_string(*it) << ", ";`.
The state is the output written so far and the uses of the vector so far. -/
def printLoop (n : Nat) : List Int → Nat → String × List Access → String × List Access
  | [], _, st => st
  | x :: rest, i, st =>
    if (i : Int) = (n : Int) - 1 then
      printLoop n rest (i + 1)
        (st.1 ++ toString x, st.2 ++ [.endMinusOne ((n : Int) - 1), .deref i])
    else
      printLoop n rest (i + 1)
        (st.1 ++ toString x ++ ", ", st.2 ++ [.endMinusOne ((n : Int) - 1), .deref i])

/-- Function `PrintVectorOfInt`: `output << "[ ";`, the loop, `output << "]";`.
Returns the output after the call and the uses made of the vector. -/
def PrintVectorOfInt (output : String) (data : List Int) : String × List Access :=
  ((printLoop data.length data 0 (output ++ "[ ", [])).1 ++ "]",
    (printLoop data.length data 0 (output ++ "[ ", [])).2)

end vector_ex

namespace morton

/-! ## Facts about the codec -/

theorem interleave_lt (n : Nat) :
    ∀ k a b, a < 2 ^ k → b < 2 ^ k → interleave n a b < 4 ^ k := by
  induction n with
  | zero => intro k a b _ _; simp [interleave]
  | succ n ih =>
    intro k a b ha hb
    cases k with
    | zero =>
      have ha0 : a = 0 := by simpa using ha
      have hb0 : b = 0 := by simpa using hb
      subst ha0 hb0
      have h0 := ih 0 0 0 (by simp) (by simp)
      simp at h0
      simp [interleave, h0]
    | succ k =>
      have h := ih k (a / 2) (b / 2) (by rw [pow_succ] at ha; omega) (by rw [pow_succ] at hb; omega)
      simp only [interleave]
      rw [pow_succ]
      omega

theorem deinterleave_interleave (n : Nat) :
    ∀ a b, a < 2 ^ n → b < 2 ^ n → deinterleave n (interleave n a b) = (a, b) := by
  induction n with
  | zero => intro a b ha hb; simp at ha hb; simp [interleave, deinterleave, ha, hb]
  | succ n ih =>
    intro a b ha hb
    have h := ih (a / 2) (b / 2) (by rw [pow_succ] at ha; omega) (by rw [pow_succ] at hb; omega)
    simp only [interleave, deinterleave]
    have e4 : (a % 2 + 2 * (b % 2) + 4 * interleave n (a / 2) (b / 2)) / 4
        = interleave n (a / 2) (b / 2) := by omega
    rw [e4, h]
    ext <;> simp <;> omega

theorem deinterleave_lt (n : Nat) :
    ∀ k z, z < 4 ^ k → (deinterleave n z).1 < 2 ^ k ∧ (deinterleave n z).2 < 2 ^ k := by
  induction n with
  | zero => intro k z _; simp [deinterleave]
  | succ n ih =>
    intro k z hz
    cases k with
    | zero =>
      have hz0 : z = 0 := by simpa using hz
      subst hz0
      have h0 := ih 0 0 (by simp)
      simp at h0
      simp [deinterleave, h0]
    | succ k =>
      have h := ih k (z / 4) (by rw [pow_succ] at hz; omega)
      simp only [deinterleave]
      rw [pow_succ]
      omega

theorem interleave_deinterleave (n : Nat) :
    ∀ z, z < 4 ^ n → interleave n (deinterleave n z).1 (deinterleave n z).2 = z := by
  induction n with
  | zero => intro z hz; simp at hz; simp [interleave, hz]
  | succ n ih =>
    intro z hz
    have h := ih (z / 4) (by rw [pow_succ] at hz; omega)
    simp only [interleave, deinterleave]
    have e1 : (z % 2 + 2 * (deinterleave n (z / 4)).1) / 2 = (deinterleave n (z / 4)).1 := by omega
    have e2 : (z / 2 % 2 + 2 * (deinterleave n (z / 4)).2) / 2 = (deinterleave n (z / 4)).2 := by
      omega
    rw [e1, e2, h]
    omega

/-- Decoding undoes encoding on all pairs of 32-bit coordinates. -/
theorem decode_encode (r c : Nat) (hr : r < 2 ^ 32) (hc : c < 2 ^ 32) :
    decode (encode r c) = (r, c) :=
  deinterleave_interleave 32 r c hr hc

/-- Encoding undoes decoding on all 64-bit offsets. -/
theorem encode_decode (z : Nat) (hz : z < 2 ^ 64) :
    encode (decode z).1 (decode z).2 = z :=
  interleave_deinterleave 32 z (by norm_num at hz ⊢; exact hz)

/-- The interleaving of the codec does not depend on how many zero high bits
are processed. -/
theorem interleave_mono (n : Nat) :
    ∀ k a b, a < 2 ^ k → b < 2 ^ k → k ≤ n → interleave n a b = interleave k a b := by
  induction n with
  | zero => intro k a b _ _ hk; have : k = 0 := by omega
            subst this; rfl
  | succ n ih =>
    intro k a b ha hb hk
    cases k with
    | zero =>
      have h0 := interleave_lt (n + 1) 0 a b ha hb
      simp at h0
      rw [h0]; rfl
    | succ k =>
      have h := ih k (a / 2) (b / 2) (by rw [pow_succ] at ha; omega) (by rw [pow_succ] at hb; omega)
        (by omega)
      simp only [interleave, h]

theorem encode_lt (k r c : Nat) (hr : r < 2 ^ k) (hc : c < 2 ^ k) :
    encode r c < 2 ^ k * 2 ^ k := by
  have h := interleave_lt 32 k r c hr hc
  have e : (4 : Nat) ^ k = 2 ^ k * 2 ^ k := by
    rw [← mul_pow]; norm_num
  rw [e] at h
  exact h

theorem decode_lt (k z : Nat) (hz : z < 2 ^ k * 2 ^ k) :
    (decode z).1 < 2 ^ k ∧ (decode z).2 < 2 ^ k := by
  have e : (4 : Nat) ^ k = 2 ^ k * 2 ^ k := by
    rw [← mul_pow]; norm_num
  exact deinterleave_lt 32 k z (by rw [e]; exact hz)

/-! ## The power-of-two check -/

theorem land_eq_zero_iff_halves (x y : Nat) :
    x &&& y = 0 ↔ ¬ (x % 2 = 1 ∧ y % 2 = 1) ∧ x / 2 &&& y / 2 = 0 := by
  have h1 := @Nat.and_mod_two_eq_one x y
  have h2 := @Nat.and_div_two x y
  constructor
  · intro h
    rw [h] at h1 h2
    exact ⟨fun hc => by have := h1.mpr hc; omega, by omega⟩
  · rintro ⟨ha, hb⟩
    rw [← h2] at hb
    have : (x &&& y) % 2 ≠ 1 := fun h => ha (h1.mp h)
    omega

theorem land_pred_eq_zero_iff :
    ∀ r : Nat, 0 < r → (r &&& (r - 1) = 0 ↔ ∃ k, r = 2 ^ k) := by
  intro r
  induction r using Nat.strong_induction_on with
  | _ r ih =>
    intro hpos
    rcases Nat.even_or_odd' r with ⟨q, rfl | rfl⟩
    · have hq : 0 < q := by omega
      have e1 : 2 * q / 2 = q := by omega
      have e2 : (2 * q - 1) / 2 = q - 1 := by omega
      rw [land_eq_zero_iff_halves, e1, e2, ih q (by omega) hq]
      constructor
      · rintro ⟨_, k, rfl⟩
        exact ⟨k + 1, by rw [pow_succ]; ring⟩
      · rintro ⟨k, hk⟩
        refine ⟨by omega, ?_⟩
        cases k with
        | zero => rw [pow_zero] at hk; omega
        | succ k => exact ⟨k, by rw [pow_succ] at hk; omega⟩
    · have e1 : (2 * q + 1) / 2 = q := by omega
      have e2 : (2 * q + 1 - 1) / 2 = q := by omega
      rw [land_eq_zero_iff_halves, e1, e2, Nat.and_self]
      constructor
      · rintro ⟨_, rfl⟩
        exact ⟨0, by simp⟩
      · rintro ⟨k, hk⟩
        refine ⟨by omega, ?_⟩
        cases k with
        | zero => rw [pow_zero] at hk; omega
        | succ k => rw [pow_succ] at hk; omega

theorem rankCheck_iff (r : Nat) (hr : r < 2 ^ 32) :
    rankCheck r = true ↔ (r = 0 ∨ ∃ k, r = 2 ^ k) := by
  unfold rankCheck sub32
  rw [beq_iff_eq]
  rcases Nat.eq_zero_or_pos r with h0 | hpos
  · subst h0; simp
  · have e : (r + 2 ^ 32 - 1 % 2 ^ 32) % 2 ^ 32 = r - 1 := by
      norm_num at hr ⊢; omega
    rw [e, land_pred_eq_zero_iff r hpos]
    constructor
    · intro h; exact Or.inr h
    · rintro (h | h)
      · omega
      · exact h

theorem isPow2Rank_lt {R : Nat} (hR : IsPow2Rank R) : 0 < R ∧ R < 2 ^ 32 := by
  obtain ⟨k, hk, rfl⟩ := hR
  refine ⟨Nat.pos_pow_of_pos k (by norm_num), ?_⟩
  exact Nat.pow_lt_pow_right (by norm_num) (by omega)

theorem rankCheck_of_pow2 {R : Nat} (hR : IsPow2Rank R) : rankCheck R = true := by
  obtain ⟨k, _, hk⟩ := id hR
  exact (rankCheck_iff R (isPow2Rank_lt hR).2).mpr (Or.inr ⟨k, hk⟩)

/-! ## Claims about the construction check and the codec -/

/-- C6: for every 32-bit unsigned rank `r`, the construction check
`(r & (r-1)) == 0`, evaluated with wrap-around 32-bit arithmetic, passes if and
only if `r` is 0 or a power of two; rank 0 is accepted and every non-zero rank
that is not a power of two fails the check, so that the constructor aborts on
exactly those ranks. -/
theorem C6_rank_check_iff (r : Nat) (hr : r < 2 ^ 32) :
    (rankCheck r = true ↔ (r = 0 ∨ ∃ k, r = 2 ^ k)) ∧
    rankCheck 0 = true ∧
    (r ≠ 0 → (¬ ∃ k, r = 2 ^ k) → rankCheck r = false) ∧
    (∀ (T : Type) (uninit : Nat → T),
      (∃ m, matrix.matrix_rank r uninit = .ok m) ↔ (r = 0 ∨ ∃ k, r = 2 ^ k)) := by
  have h := rankCheck_iff r hr
  refine ⟨h, by rfl, ?_, ?_⟩
  · intro h0 hk
    cases hc : rankCheck r with
    | false => rfl
    | true =>
      rcases h.mp hc with h1 | h1
      · exact absurd h1 h0
      · exact absurd h1 hk
  · intro T uninit
    rw [← h]
    unfold matrix.matrix_rank
    cases hc : rankCheck r <;> simp

/-- C6 (witness): the check at rank 12, which is neither 0 nor a power of two. -/
theorem C6_rank_check_iff_witness :
    (12 : Nat) < 2 ^ 32 ∧
    ((rankCheck 12 = true ↔ ((12 : Nat) = 0 ∨ ∃ k, (12 : Nat) = 2 ^ k)) ∧
      rankCheck 0 = true ∧
      ((12 : Nat) ≠ 0 → (¬ ∃ k, (12 : Nat) = 2 ^ k) → rankCheck 12 = false) ∧
      (∀ (T : Type) (uninit : Nat → T),
        (∃ m, matrix.matrix_rank 12 uninit = .ok m) ↔ ((12 : Nat) = 0 ∨ ∃ k, (12 : Nat) = 2 ^ k))) :=
  ⟨by norm_num, C6_rank_check_iff 12 (by norm_num)⟩

/-- C9: for every power-of-two rank `R` and all `row`, `col` below `R`, decoding
the offset produced by `encode(row, col)` gives back exactly `(row, col)`; for
rank 4, `encode(1,2)` and `encode(2,1)` differ and each decodes to its original
pair. -/
theorem C9_decode_encode_roundtrip (R row col : Nat) (hR : IsPow2Rank R)
    (hrow : row < R) (hcol : col < R) :
    decode (encode row col) = (row, col) ∧
    (IsPow2Rank 4 ∧ encode 1 2 ≠ encode 2 1 ∧
      decode (encode 1 2) = (1, 2) ∧ decode (encode 2 1) = (2, 1)) := by
  have hlt := (isPow2Rank_lt hR).2
  refine ⟨decode_encode row col (by omega) (by omega), ⟨2, by norm_num, by norm_num⟩, ?_, ?_, ?_⟩
  · decide
  · decide
  · decide

/-- C9 (witness): the round trip at rank 8, coordinates `(5, 3)`. -/
theorem C9_decode_encode_roundtrip_witness :
    IsPow2Rank 8 ∧ 5 < 8 ∧ 3 < 8 ∧
    (decode (encode 5 3) = (5, 3) ∧
      (IsPow2Rank 4 ∧ encode 1 2 ≠ encode 2 1 ∧
        decode (encode 1 2) = (1, 2) ∧ decode (encode 2 1) = (2, 1))) :=
  ⟨⟨3, by norm_num, by norm_num⟩, by norm_num, by norm_num,
    C9_decode_encode_roundtrip 8 5 3 ⟨3, by norm_num, by norm_num⟩ (by norm_num) (by norm_num)⟩

/-- Codec on the grid: for every power-of-two rank `R`, `encode` restricted to
`[0,R) x [0,R)` is a bijection onto `{0, ..., R*R-1}`: every `encode(r, c)`
with `r, c < R` is below `R*R`, distinct pairs get distinct offsets, and every
offset below `R*R` is hit. -/
theorem encode_bijection_on_grid (R : Nat) (hR : IsPow2Rank R) :
    (∀ r c, r < R → c < R → encode r c < R * R) ∧
    (∀ r c r' c', r < R → c < R → r' < R → c' < R →
      encode r c = encode r' c' → r = r' ∧ c = c') ∧
    (∀ z, z < R * R → ∃ r c, r < R ∧ c < R ∧ encode r c = z) := by
  have hlt := (isPow2Rank_lt hR).2
  obtain ⟨k, hk, rfl⟩ := hR
  refine ⟨fun r c hr hc => encode_lt k r c hr hc, ?_, ?_⟩
  · intro r c r' c' hr hc hr' hc' he
    have h1 := decode_encode r c (by omega) (by omega)
    have h2 := decode_encode r' c' (by omega) (by omega)
    rw [he, h2] at h1
    simpa [eq_comm] using h1
  · intro z hz
    have hd := decode_lt k z hz
    have h64 : z < 2 ^ 64 := by
      have : 2 ^ k * 2 ^ k ≤ 2 ^ 31 * 2 ^ 31 :=
        Nat.mul_le_mul (Nat.pow_le_pow_right (by norm_num) hk)
          (Nat.pow_le_pow_right (by norm_num) hk)
      have h62 : (2 : Nat) ^ 31 * 2 ^ 31 < 2 ^ 64 := by norm_num
      omega
    exact ⟨(decode z).1, (decode z).2, hd.1, hd.2, encode_decode z h64⟩

/-- Codec on the grid of rank 4. -/
theorem encode_bijection_on_grid_rank4 :
    IsPow2Rank 4 ∧
    ((∀ r c, r < 4 → c < 4 → encode r c < 4 * 4) ∧
      (∀ r c r' c', r < 4 → c < 4 → r' < 4 → c' < 4 →
        encode r c = encode r' c' → r = r' ∧ c = c') ∧
      (∀ z, z < 4 * 4 → ∃ r c, r < 4 ∧ c < 4 ∧ encode r c = z)) :=
  ⟨⟨2, by norm_num, by norm_num⟩, encode_bijection_on_grid 4 ⟨2, by norm_num, by norm_num⟩⟩

/-! ## Construction, `begin()` and `end()` -/

theorem matrix_rank_ok {T : Type} (r : Nat) (uninit : Nat → T) (h : rankCheck r = true) :
    matrix.matrix_rank r uninit
      = .ok { _rank := r, _data := some (newArray (mul32 r r) uninit) } := by
  simp [matrix.matrix_rank, h]

theorem newArray_length {T : Type} (n : Nat) (uninit : Nat → T) :
    (newArray n uninit).length = n := by
  simp [newArray]

theorem built_elim {T : Type} {m : matrix T} (hb : m.Built) :
    m._rank < 2 ^ 32 ∧ rankCheck m._rank = true ∧
      ∃ buf, m._data = some buf ∧ buf.length = mul32 m._rank m._rank := by
  obtain ⟨h32, hc, hd⟩ := hb
  refine ⟨h32, hc, ?_⟩
  cases hdata : m._data with
  | none => simp [hdata] at hd
  | some buf => exact ⟨buf, rfl, by simpa [hdata] using hd⟩

theorem built_intro {T : Type} {m : matrix T} (buf : List T) (h32 : m._rank < 2 ^ 32)
    (hc : rankCheck m._rank = true) (hd : m._data = some buf)
    (hlen : buf.length = mul32 m._rank m._rank) : m.Built :=
  ⟨h32, hc, by simp [hd, hlen]⟩

theorem matrix_rank_built {T : Type} (r : Nat) (uninit : Nat → T) (m : matrix T)
    (hr : r < 2 ^ 32) (h : matrix.matrix_rank r uninit = .ok m) : m.Built := by
  unfold matrix.matrix_rank at h
  cases hc : rankCheck r with
  | false => simp [hc] at h
  | true =>
    simp [hc] at h
    subst h
    exact built_intro _ hr hc rfl (newArray_length _ _)

theorem begin_of_data {T : Type} (m : matrix T) (buf : List T) (h : m._data = some buf) :
    m.begin = .ok { _start := 0, _p := 0, _end := (mul64 m._rank m._rank : Nat) } := by
  simp [matrix.begin, matrix.data, h, matrix_iterator.construct]

theorem end_of_data {T : Type} (m : matrix T) (buf : List T) (h : m._data = some buf) :
    m.end_ = .ok { _start := 0, _p := (mul32 m._rank m._rank : Nat),
                   _end := (mul64 m._rank m._rank : Nat) } := by
  simp [matrix.end_, matrix.data, h, matrix_iterator.construct]

theorem begin_of_null {T : Type} (m : matrix T) (h : m._data = none) :
    m.begin = .error .assertion := by
  simp [matrix.begin, matrix.data, h, matrix_iterator.construct]

theorem end_of_null {T : Type} (m : matrix T) (h : m._data = none) :
    m.end_ = .error .assertion := by
  simp [matrix.end_, matrix.data, h, matrix_iterator.construct]

theorem mul32_eq_of_small (r : Nat) (h : r < 2 ^ 16) : mul32 r r = r * r := by
  unfold mul32
  apply Nat.mod_eq_of_lt
  have : r * r < 2 ^ 16 * 2 ^ 16 := Nat.mul_lt_mul'' h h
  norm_num at this ⊢
  exact this

theorem mul64_eq (r : Nat) (h : r < 2 ^ 32) : mul64 r r = r * r := by
  unfold mul64
  apply Nat.mod_eq_of_lt
  have : r * r < 2 ^ 32 * 2 ^ 32 := Nat.mul_lt_mul'' h h
  norm_num at this ⊢
  exact this

/-- Scope of the 32-bit product in `end()`: for every rank below `2^16`
that passes the construction check, `end()` sits at storage offset
`rank*rank`, which is `size()`. -/
theorem end_offset_of_small {T : Type} (m : matrix T) (hb : m.Built) (hs : m._rank < 2 ^ 16) :
    ∃ e, m.end_ = .ok e ∧ e.offset = (m.size : Int) ∧ m.size = m._rank * m._rank := by
  obtain ⟨h32, _, buf, hd, _⟩ := built_elim hb
  refine ⟨_, end_of_data m buf hd, ?_, ?_⟩
  · simp [matrix_iterator.offset, matrix.size, mul32_eq_of_small _ hs, mul64_eq _ h32]
  · simp [matrix.size, mul64_eq _ h32]

theorem begin_const_eq {T : Type} (m : matrix T) : m.begin_const = m.begin := rfl

theorem end_const_eq {T : Type} (m : matrix T) : m.end_const = m.end_ := rfl

theorem begin_mk {T : Type} (r : Nat) (buf : List T) :
    (matrix.mk r (some buf)).begin
      = .ok { _start := 0, _p := 0, _end := (mul64 r r : Nat) } :=
  begin_of_data _ buf rfl

theorem end_mk {T : Type} (r : Nat) (buf : List T) :
    (matrix.mk r (some buf)).end_
      = .ok { _start := 0, _p := (mul32 r r : Nat), _end := (mul64 r r : Nat) } :=
  end_of_data _ buf rfl

theorem size_mk {T : Type} (r : Nat) (d : Option (List T)) :
    (matrix.mk r d).size = mul64 r r := rfl

theorem traverse_of {T : Type} (m : matrix T) (b e : matrix_iterator) (fuel : Nat)
    (hb : m.begin = .ok b) (he : m.end_ = .ok e) : m.traverse fuel = walk fuel b e := by
  unfold matrix.traverse
  rw [hb, he]

theorem walk_same (n : Nat) (it last : matrix_iterator) (h : it._p = last._p) :
    walk n it last = .ok [] := by
  cases n <;> simp [walk, matrix_iterator.ne, matrix_iterator.eq, h]

theorem mul32_of_large_pow2 (k : Nat) (hk : 16 ≤ k) : mul32 (2 ^ k) (2 ^ k) = 0 := by
  unfold mul32
  apply Nat.mod_eq_zero_of_dvd
  rw [← pow_add]
  exact Nat.pow_dvd_pow 2 (by omega)

/-- Extent of the 32-bit product in `end()` and in the allocation: for every
rank `2^k` with `16 <= k <= 31` the constructor succeeds, the buffer it
allocates has no element, `end()` is at storage offset 0, and `size()` is the
non-zero number `2^k * 2^k`. -/
theorem large_rank_wraps {T : Type} (k : Nat) (hk : 16 ≤ k) (hk31 : k ≤ 31) (uninit : Nat → T) :
    ∃ m e, matrix.matrix_rank (2 ^ k) uninit = .ok m ∧ m._data = some [] ∧
      m.end_ = .ok e ∧ e.offset = 0 ∧ m.size = 2 ^ k * 2 ^ k ∧ 0 < m.size := by
  have hR : IsPow2Rank (2 ^ k) := ⟨k, hk31, rfl⟩
  have h32 := (isPow2Rank_lt hR).2
  refine ⟨_, _, matrix_rank_ok _ uninit (rankCheck_of_pow2 hR), ?_, end_of_data _ _ rfl, ?_, ?_, ?_⟩
  · simp [mul32_of_large_pow2 k hk, newArray]
  · simp [matrix_iterator.offset, mul32_of_large_pow2 k hk]
  · simp [matrix.size, mul64_eq _ h32]
  · simp [matrix.size, mul64_eq _ h32]

/-! ## Iterator steps and loops -/

theorem inc_mk (s p e : Int) (h : p ≠ e) :
    matrix_iterator.inc ⟨s, p, e⟩ = ⟨s, p + 1, e⟩ := by
  simp [matrix_iterator.inc, h]

theorem inc_at_end (it : matrix_iterator) (h : it._p = it._end) : it.inc = it := by
  simp [matrix_iterator.inc, h]

theorem dec_at_start (it : matrix_iterator) (h : it._p = it._start) : it.dec = it := by
  simp [matrix_iterator.dec, h]

theorem iterate_fixed (f : matrix_iterator → matrix_iterator) (it : matrix_iterator)
    (h : f it = it) : ∀ n, iterate f n it = it := by
  intro n
  induction n with
  | zero => rfl
  | succ n ih => simp [iterate, h, ih]

theorem load_natCast {T : Type} (buf : List T) (a : Nat) (h : a < buf.length) :
    load buf (a : Int) = .ok (buf.get ⟨a, h⟩) := by
  simp [load, List.getElem?_eq_getElem h]

theorem store_natCast {T : Type} (buf : List T) (a : Nat) (v : T) (h : a < buf.length) :
    store buf (a : Int) v = .ok (buf.set a v) := by
  simp [store, h]

theorem copy_all {T : Type} (src : List T) (E : Nat) (hE : src.length ≤ E) :
    ∀ (d n a : Nat) (dst : List T), a + d = src.length → d ≤ n →
      dst.length = src.length → (∀ i, i < a → dst[i]? = src[i]?) →
      copy src n ⟨0, a, E⟩ ⟨0, src.length, E⟩ ⟨0, a, E⟩ dst
        = .ok (src, ⟨0, src.length, E⟩) := by
  intro d
  induction d with
  | zero =>
    intro n a dst had _ hlen hpre
    have ha : a = src.length := by omega
    subst ha
    have hds : dst = src := by
      apply List.ext_getElem? 
      intro i
      by_cases hi : i < src.length
      · exact hpre i hi
      · rw [List.getElem?_eq_none (by omega), List.getElem?_eq_none (by omega)]
    cases n <;> simp [copy, matrix_iterator.ne, matrix_iterator.eq, hds]
  | succ d ih =>
    intro n a dst had hn hlen hpre
    obtain ⟨n, rfl⟩ : ∃ n', n = n' + 1 := ⟨n - 1, by omega⟩
    have ha : a < src.length := by omega
    have hne : ((a : Int) ≠ (src.length : Int)) := by omega
    have hneE : ((a : Int) ≠ (E : Int)) := by omega
    have hcast : ((a : Int) + 1) = ((a + 1 : Nat) : Int) := by push_cast; rfl
    simp only [copy, matrix_iterator.ne, matrix_iterator.eq, matrix_iterator.deref]
    rw [if_pos (by simpa using hne)]
    rw [load_natCast src a ha]
    simp only []
    rw [store_natCast dst a _ (by omega)]
    simp only [inc_mk _ _ _ hneE, hcast]
    apply ih n (a + 1) _ (by omega) (by omega) (by simp [hlen])
    intro i hi
    rw [List.getElem?_set]
    by_cases hia : a = i
    · subst hia
      simp [hlen, ha]
    · simp [hia]
      exact hpre i (by omega)

theorem copy_whole {T : Type} (src dst : List T) (E n : Nat) (hE : src.length ≤ E)
    (hn : src.length ≤ n) (hlen : dst.length = src.length) :
    copy src n ⟨0, 0, E⟩ ⟨0, src.length, E⟩ ⟨0, 0, E⟩ dst
      = .ok (src, ⟨0, src.length, E⟩) := by
  have h := copy_all src E hE src.length n 0 dst (by omega) hn hlen (by intro i hi; omega)
  simpa using h

theorem mul32_le_mul64 (r : Nat) (h : r < 2 ^ 32) : mul32 r r ≤ mul64 r r := by
  rw [mul64_eq r h]
  exact Nat.mod_le _ _

theorem duplicate_built {T : Type} (m : matrix T) (hb : m.Built) (uninit : Nat → T)
    (fuel : Nat) (hf : mul32 m._rank m._rank ≤ fuel) :
    m.duplicate fuel uninit = .ok m := by
  obtain ⟨h32, hc, buf, hd, hlen⟩ := built_elim hb
  cases m with
  | mk r data =>
    simp only at h32 hc hd hlen hf
    subst hd
    unfold matrix.duplicate
    rw [matrix_rank_ok _ _ hc]
    simp only [begin_const_eq, end_const_eq, begin_mk, end_mk]
    rw [← hlen]
    rw [copy_whole buf _ _ fuel (by rw [hlen]; exact mul32_le_mul64 r h32) (by omega)
      (by rw [newArray_length, hlen])]

theorem x_natCast (a E : Nat) :
    matrix_iterator.x ⟨0, a, E⟩ = .ok (decode a).1 := by
  simp [matrix_iterator.x]

theorem y_natCast (a E : Nat) :
    matrix_iterator.y ⟨0, a, E⟩ = .ok (decode a).2 := by
  simp [matrix_iterator.y]

theorem walk_range (E : Nat) :
    ∀ (d n a b : Nat), a + d = b → d ≤ n → b ≤ E →
      walk n ⟨0, a, E⟩ ⟨0, b, E⟩ = .ok ((List.range' a d).map visitAt) := by
  intro d
  induction d with
  | zero =>
    intro n a b hab _ _
    have h : a = b := by omega
    subst h
    simpa using walk_same n ⟨0, a, E⟩ ⟨0, a, E⟩ rfl
  | succ d ih =>
    intro n a b hab hn hbE
    obtain ⟨n, rfl⟩ : ∃ n', n = n' + 1 := ⟨n - 1, by omega⟩
    have hne : ((a : Int) ≠ (b : Int)) := by omega
    have hneE : ((a : Int) ≠ (E : Int)) := by omega
    have hcast : ((a : Int) + 1) = ((a + 1 : Nat) : Int) := by push_cast; rfl
    simp only [walk, matrix_iterator.ne, matrix_iterator.eq]
    rw [if_pos (by simpa using hne), x_natCast, y_natCast, inc_mk _ _ _ hneE, hcast,
      ih n (a + 1) b (by omega) (by omega) hbE]
    simp [List.range'_succ, visitAt, matrix_iterator.offset]

/-- Scope of the 32-bit product in `end()`: on every matrix built with a rank
below `2^16`, the loop from `begin()` to `end()` visits the storage offsets
`0, 1, ..., rank*rank - 1` in this order and records at offset `k` the pair
`decode(k)`. -/
theorem traverse_small_rank {T : Type} (m : matrix T) (hb : m.Built) (hs : m._rank < 2 ^ 16)
    (fuel : Nat) (hf : m._rank * m._rank ≤ fuel) :
    m.traverse fuel = .ok ((List.range (m._rank * m._rank)).map visitAt) := by
  obtain ⟨h32, _, buf, hd, _⟩ := built_elim hb
  rw [traverse_of m _ _ fuel (begin_of_data m buf hd) (end_of_data m buf hd),
    mul32_eq_of_small _ hs, mul64_eq _ h32]
  have h := walk_range (m._rank * m._rank) (m._rank * m._rank) fuel 0 (m._rank * m._rank)
    (by omega) hf (le_refl _)
  rw [List.range_eq_range']
  simpa using h

theorem visitAt_grid (R : Nat) (hR : IsPow2Rank R) :
    (∀ k, k < R * R → (decode k).1 < R ∧ (decode k).2 < R ∧
      encode (decode k).1 (decode k).2 = k) ∧
    (∀ r c, r < R → c < R → encode r c < R * R ∧ visitAt (encode r c) = (((encode r c : Nat) : Int), r, c)) ∧
    ((List.range (R * R)).map (fun k => decode k)).Nodup := by
  have hlt := (isPow2Rank_lt hR).2
  obtain ⟨k, hk, rfl⟩ := hR
  have h64 : ∀ z, z < 2 ^ k * 2 ^ k → z < 2 ^ 64 := by
    intro z hz
    have : 2 ^ k * 2 ^ k ≤ 2 ^ 31 * 2 ^ 31 :=
      Nat.mul_le_mul (Nat.pow_le_pow_right (by norm_num) hk)
        (Nat.pow_le_pow_right (by norm_num) hk)
    have h62 : (2 : Nat) ^ 31 * 2 ^ 31 < 2 ^ 64 := by norm_num
    omega
  refine ⟨?_, ?_, ?_⟩
  · intro z hz
    exact ⟨(decode_lt k z hz).1, (decode_lt k z hz).2, encode_decode z (h64 z hz)⟩
  · intro r c hr hc
    refine ⟨encode_lt k r c hr hc, ?_⟩
    simp [visitAt, decode_encode r c (by omega) (by omega)]
  · apply List.Nodup.map_on _ (List.nodup_range _)
    intro a ha b hb hab
    rw [List.mem_range] at ha hb
    have h1 := encode_decode a (h64 a ha)
    have h2 := encode_decode b (h64 b hb)
    rw [hab] at h1
    omega

theorem get_mk {T : Type} (r : Nat) (buf : List T) (i j : Nat) (h : encode i j < buf.length) :
    (matrix.mk r (some buf)).get i j = .ok (buf.get ⟨encode i j, h⟩) := by
  simp only [matrix.get]
  exact load_natCast buf _ h

theorem set_mk {T : Type} (r : Nat) (buf : List T) (i j : Nat) (v : T)
    (h : encode i j < buf.length) :
    (matrix.mk r (some buf)).set i j v = .ok (matrix.mk r (some (buf.set (encode i j) v))) := by
  simp only [matrix.set]
  rw [store_natCast buf _ v h]

theorem set_built {T : Type} (m m' : matrix T) (hb : m.Built) (i j : Nat) (v : T)
    (h : m.set i j v = .ok m') : m'.Built := by
  obtain ⟨h32, hc, buf, hd, hlen⟩ := built_elim hb
  cases m with
  | mk rk data =>
    simp only at hd h32 hc hlen
    subst hd
    by_cases hin : encode i j < buf.length
    · rw [set_mk rk buf i j v hin] at h
      cases h
      exact built_intro _ h32 hc rfl (by simpa using hlen)
    · simp [matrix.set, store, hin] at h

/-- Element access on a matrix whose buffer holds `R*R` elements, `R` a power
of two: a write at `(r, c)` is read back at `(r, c)` and leaves the value read
at every other coordinate pair of the grid unchanged. -/
theorem set_get_of_length {T : Type} (R : Nat) (hR : IsPow2Rank R) (m : matrix T) (buf : List T)
    (hd : m._data = some buf) (hlen : buf.length = R * R)
    (r c : Nat) (hr : r < R) (hc : c < R) (v : T) :
    ∃ m', m.set r c v = .ok m' ∧ m'._rank = m._rank ∧
      (∃ buf', m'._data = some buf' ∧ buf'.length = R * R) ∧
      m'.get r c = .ok v ∧
      ∀ i j, i < R → j < R → (i, j) ≠ (r, c) →
        m'.get i j = m.get i j ∧ ∃ w, m.get i j = .ok w := by
  have hlt := (isPow2Rank_lt hR).2
  have hbij := visitAt_grid R hR
  have hin : encode r c < buf.length := by rw [hlen]; exact (hbij.2.1 r c hr hc).1
  cases m with
  | mk rk data =>
    simp only at hd
    subst hd
    refine ⟨_, set_mk rk buf r c v hin, rfl, ⟨_, rfl, by simp [hlen]⟩, ?_, ?_⟩
    · rw [get_mk rk _ r c (by simpa using hin)]
      simp
    · intro i j hi hj hne
      have hin2 : encode i j < buf.length := by rw [hlen]; exact (hbij.2.1 i j hi hj).1
      have hdiff : encode r c ≠ encode i j := by
        intro he
        have h1 := decode_encode r c (by omega) (by omega)
        have h2 := decode_encode i j (by omega) (by omega)
        rw [he, h2] at h1
        exact hne h1
      refine ⟨?_, _, get_mk rk buf i j hin2⟩
      rw [get_mk rk _ i j (by simpa using hin2), get_mk rk buf i j hin2]
      simp [List.getElem_set_of_ne hdiff]

/-- Scope of the 32-bit product in `end()`: on every matrix built by the
constructor, pre-decrements of `begin()` are no-ops, and when the rank is below
`2^16` pre-increments of `end()` are no-ops. -/
theorem saturation_of_built {T : Type} (m : matrix T) (hb : m.Built) :
    ∃ b e, m.begin = .ok b ∧ m.end_ = .ok e ∧
      (∀ n, iterate matrix_iterator.dec n b = b) ∧
      (m._rank < 2 ^ 16 → ∀ n, iterate matrix_iterator.inc n e = e) := by
  obtain ⟨h32, _, buf, hd, _⟩ := built_elim hb
  refine ⟨_, _, begin_of_data m buf hd, end_of_data m buf hd, ?_, ?_⟩
  · exact iterate_fixed _ _ (dec_at_start _ rfl)
  · intro hs
    refine iterate_fixed _ _ (inc_at_end _ ?_)
    simp [mul32_eq_of_small _ hs, mul64_eq _ h32]

theorem isPow2Rank_of_check (r : Nat) (hr : r < 2 ^ 32) (hc : rankCheck r = true)
    (h0 : r ≠ 0) : IsPow2Rank r := by
  rcases (rankCheck_iff r hr).mp hc with h | ⟨k, hk⟩
  · exact absurd h h0
  · refine ⟨k, ?_, hk⟩
    by_contra hk31
    have : 2 ^ 32 ≤ 2 ^ k := Nat.pow_le_pow_right (by norm_num) (by omega)
    omega

/-! ## Rank `65536`: the 32-bit products `r*r` wrap to zero -/

theorem rankCheck_65536 : rankCheck 65536 = true := by decide

theorem mul32_65536 : mul32 65536 65536 = 0 := by decide

theorem mul64_65536 : mul64 65536 65536 = 4294967296 := by decide

theorem isPow2Rank_65536 : IsPow2Rank 65536 := ⟨16, by norm_num, by norm_num⟩

theorem matrix_rank_65536 {T : Type} (uninit : Nat → T) :
    matrix.matrix_rank 65536 uninit = .ok (matrix.mk 65536 (some [])) := by
  rw [matrix_rank_ok _ _ rankCheck_65536, mul32_65536]
  rfl

theorem begin_65536 {T : Type} (buf : List T) :
    (matrix.mk 65536 (some buf)).begin
      = .ok { _start := 0, _p := 0, _end := 4294967296 } := by
  rw [begin_mk, mul64_65536]
  rfl

theorem end_65536 {T : Type} (buf : List T) :
    (matrix.mk 65536 (some buf)).end_
      = .ok { _start := 0, _p := 0, _end := 4294967296 } := by
  rw [end_mk, mul32_65536, mul64_65536]
  rfl

theorem size_65536 {T : Type} (d : Option (List T)) :
    (matrix.mk 65536 d).size = 4294967296 := by
  rw [size_mk, mul64_65536]

/-- C2: evaluation at rank `65536 = 2^16`, which the constructor accepts.
Both the mutable and the const `end()` return a cursor at storage offset 0
(`_rank*_rank` is taken in 32 bits), while `size()` returns `2^32` and the
cursor's own `_end` lies `2^32` slots after `_start`; `begin()` is at offset 0
as claimed. -/
theorem C2_end_offset_at_rank_65536 :
    ∀ (T : Type) (uninit : Nat → T),
      rankCheck 65536 = true ∧
      ∃ m b e, matrix.matrix_rank 65536 uninit = .ok m ∧
        m.begin = .ok b ∧ m.begin_const = .ok b ∧ b.offset = 0 ∧
        m.end_ = .ok e ∧ m.end_const = .ok e ∧ e.offset = 0 ∧
        e._end - e._start = 4294967296 ∧
        m.size = 4294967296 := by
  intro T uninit
  exact ⟨rankCheck_65536, matrix.mk 65536 (some []),
    { _start := 0, _p := 0, _end := 4294967296 },
    { _start := 0, _p := 0, _end := 4294967296 }, matrix_rank_65536 uninit,
    begin_65536 [], begin_65536 [], by decide, end_65536 [], end_65536 [], by decide,
    by decide, size_65536 _⟩

/-- C7: evaluation at rank `65536 = 2^16`, which the constructor accepts.
The buffer allocated by `new T[r*r]` has 0 elements (the product is taken in
32 bits), while `size()` returns `2^32`.  The default constructor yields rank 0
and holds no buffer. -/
theorem C7_buffer_length_at_rank_65536 :
    ∀ (T : Type) (uninit : Nat → T),
      rankCheck 65536 = true ∧
      (∃ m buf, matrix.matrix_rank 65536 uninit = .ok m ∧ m._data = some buf ∧
        buf.length = 0 ∧ m.size = 4294967296) ∧
      (matrix.matrix_empty : matrix T).rank = 0 ∧
      (matrix.matrix_empty : matrix T)._data = none := by
  intro T uninit
  exact ⟨rankCheck_65536, ⟨matrix.mk 65536 (some []), [], matrix_rank_65536 uninit,
    rfl, rfl, size_65536 _⟩, rfl, rfl⟩

/-- C1: evaluation at rank `65536 = 2^16`.  `begin()` and `end()` are both at
storage offset 0, so the loop from `begin()` to `end()` visits no position at
all, whatever the iteration budget, while the grid has `2^32` cells. -/
theorem C1_traverse_at_rank_65536 :
    ∀ (T : Type) (uninit : Nat → T) (fuel : Nat),
      IsPow2Rank 65536 ∧
      ∃ m, matrix.matrix_rank 65536 uninit = .ok m ∧
        m.traverse fuel = .ok [] ∧ m.size = 4294967296 := by
  intro T uninit fuel
  refine ⟨isPow2Rank_65536, matrix.mk 65536 (some []), matrix_rank_65536 uninit, ?_,
    size_65536 _⟩
  rw [traverse_of _ _ _ fuel (begin_65536 []) (end_65536 [])]
  exact walk_same fuel _ _ rfl

/-- C3: evaluation at rank `65536 = 2^16`.  The matrix built by the constructor
owns a buffer of 0 elements, so every write through the mutable accessor, and
every read, addresses a slot outside the buffer. -/
theorem C3_write_at_rank_65536 :
    ∀ (T : Type) (uninit : Nat → T) (v : T) (r c : Nat),
      IsPow2Rank 65536 ∧
      ∃ m, matrix.matrix_rank 65536 uninit = .ok m ∧
        m.set r c v = .error .undefined ∧ m.get r c = .error .undefined := by
  intro T uninit v r c
  refine ⟨isPow2Rank_65536, matrix.mk 65536 (some []), matrix_rank_65536 uninit, ?_, ?_⟩
  · simp [matrix.set, store]
  · simp only [matrix.get, load]
    split <;> simp

/-- C5: evaluation at rank `65536 = 2^16`.  The cursor returned by `end()` is
at offset 0 and its `_end` is `2^32` slots further, so one pre-increment moves
it to offset 1 and it no longer compares equal to `end()`. -/
theorem C5_increment_end_at_rank_65536 :
    ∀ (T : Type) (uninit : Nat → T),
      IsPow2Rank 65536 ∧
      ∃ m e, matrix.matrix_rank 65536 uninit = .ok m ∧ m.end_ = .ok e ∧
        (iterate matrix_iterator.inc 1 e).offset = 1 ∧
        (iterate matrix_iterator.inc 1 e).eq e = false := by
  intro T uninit
  exact ⟨isPow2Rank_65536, matrix.mk 65536 (some []),
    { _start := 0, _p := 0, _end := 4294967296 }, matrix_rank_65536 uninit, end_65536 [],
    by decide, by decide⟩

theorem encode_lt_65536 (r c : Nat) (hr : r < 65536) (hc : c < 65536) :
    encode r c < 65536 * 65536 := by
  have h := encode_lt 16 r c (by norm_num; exact hr) (by norm_num; exact hc)
  norm_num at h ⊢
  exact h

/-- C10: evaluation at rank `65536 = 2^16`, a power of two that the
constructor accepts.  Every `encode(r, c)` with `r, c < 65536` is below
`65536 * 65536`, as the claim says, but the buffer that the constructor
allocates has 0 elements (`r*r` is taken in 32 bits), so no `encode(r, c)` is
an index inside the buffer and element access at every coordinate pair is
outside it. -/
theorem C10_access_outside_buffer_at_rank_65536 :
    ∀ (T : Type) (uninit : Nat → T),
      IsPow2Rank 65536 ∧
      (∀ r c, r < 65536 → c < 65536 → encode r c < 65536 * 65536) ∧
      ∃ m buf, matrix.matrix_rank 65536 uninit = .ok m ∧ m._data = some buf ∧
        buf.length = 0 ∧ m.size = 4294967296 ∧
        (∀ r c, ¬ encode r c < buf.length) ∧
        (∀ r c, m.get r c = .error .undefined) := by
  intro T uninit
  refine ⟨isPow2Rank_65536, encode_lt_65536, matrix.mk 65536 (some []), [],
    matrix_rank_65536 uninit, rfl, rfl, size_65536 _, ?_, ?_⟩
  · intro r c
    simp
  · intro r c
    simp only [matrix.get, load]
    split <;> simp

/-! ## The empty matrix -/

/-- C8 (counterexample): on the matrix built by the default constructor, which
has rank 0, `begin()` and `end()` both fail the assertion
`_start != nullptr` of the iterator constructor. -/
theorem C8_default_matrix_begin_fails :
    (matrix.matrix_empty : matrix Int).rank = 0 ∧
    (matrix.matrix_empty : matrix Int).begin = .error .assertion ∧
    (matrix.matrix_empty : matrix Int).end_ = .error .assertion := by
  refine ⟨rfl, rfl, rfl⟩

/-- C8 (amended): the rank-0 matrix built by `matrix(0)` has `size() == 0`, and
its `begin()` and `end()` (mutable and const) are produced without an assertion
failure and compare equal; the matrix built by the default constructor has
`size() == 0` and holds no buffer, and its `begin()` and `end()` fail the
non-null assertion of the iterator constructor. -/
theorem C8_empty_matrix (T : Type) (uninit : Nat → T) :
    (∃ m b e, matrix.matrix_rank 0 uninit = .ok m ∧ m.size = 0 ∧
      m.begin = .ok b ∧ m.end_ = .ok e ∧ b.eq e = true ∧
      m.begin_const = .ok b ∧ m.end_const = .ok e) ∧
    ((matrix.matrix_empty : matrix T).size = 0 ∧
      (matrix.matrix_empty : matrix T)._data = none ∧
      (matrix.matrix_empty : matrix T).begin = .error .assertion ∧
      (matrix.matrix_empty : matrix T).end_ = .error .assertion ∧
      (matrix.matrix_empty : matrix T).begin_const = .error .assertion ∧
      (matrix.matrix_empty : matrix T).end_const = .error .assertion) := by
  refine ⟨⟨{ _rank := 0, _data := some [] }, { _start := 0, _p := 0, _end := 0 },
    { _start := 0, _p := 0, _end := 0 }, ?_, ?_, ?_, ?_, ?_, ?_, ?_⟩, ?_, ?_, ?_, ?_, ?_, ?_⟩ <;> rfl

/-! ## Duplication -/

theorem duplicate_null {T : Type} (m : matrix T) (h : m._data = none) (fuel : Nat)
    (uninit : Nat → T) (hc : rankCheck m._rank = true) :
    m.duplicate fuel uninit = .error .assertion := by
  unfold matrix.duplicate
  rw [matrix_rank_ok _ _ hc, begin_const_eq, begin_of_null m h]

theorem rankCheck_zero : rankCheck 0 = true := by decide

/-- C4 (counterexample): `duplicate()` of the matrix built by the default
constructor aborts on the assertion `_start != nullptr` raised by `begin()`,
before the copy loop is entered (the outcome is not the exhaustion of the
iteration budget, here 1000). -/
theorem C4_duplicate_default_fails :
    (matrix.matrix_empty : matrix Int).rank = 0 ∧
    (matrix.matrix_empty : matrix Int)._data = none ∧
    (matrix.matrix_empty : matrix Int).duplicate 1000 (fun _ => 0) = .error .assertion :=
  ⟨rfl, rfl, duplicate_null _ rfl 1000 _ rankCheck_zero⟩

/-- C4 (amended): for every matrix `m` that holds a buffer, in the state the
constructor `matrix(uint32_t)` and element writes leave it (rank 0 or a power
of two, buffer of `rank*rank` elements counted in 32 bits), `m.duplicate()`
completes without tripping an assertion, given an iteration budget of at least
the buffer length, and returns a matrix `d` with `d.rank() == m.rank()` whose
buffer equals the buffer of `m`, so `d(i, j) == m(i, j)` for all `i`, `j`
(both reads succeed when the rank is below `2^16` and `i`, `j` are below the
rank); `m` is an input that the operation does not modify.  On a matrix
without a buffer, such as the one built by the default constructor,
`duplicate()` trips the non-null assertion of the iterator constructor. -/
theorem C4_duplicate_built {T : Type} (m : matrix T) (hb : m.Built) (uninit : Nat → T)
    (fuel : Nat) (hf : mul32 m._rank m._rank ≤ fuel) :
    (∃ d, m.duplicate fuel uninit = .ok d ∧ d.rank = m.rank ∧ d._data = m._data ∧
      (∀ i j, d.get i j = m.get i j) ∧
      (m._rank < 2 ^ 16 → ∀ i j, i < m._rank → j < m._rank →
        ∃ v, m.get i j = .ok v ∧ d.get i j = .ok v)) ∧
    (∀ n, (matrix.matrix_empty : matrix T).duplicate n uninit = .error .assertion) := by
  refine ⟨⟨m, duplicate_built m hb uninit fuel hf, rfl, rfl, fun _ _ => rfl, ?_⟩,
    fun n => duplicate_null _ rfl n _ rankCheck_zero⟩
  intro hs i j hi hj
  obtain ⟨h32, hc, buf, hd, hlen⟩ := built_elim hb
  have hR : IsPow2Rank m._rank := isPow2Rank_of_check _ h32 hc (by omega)
  have hin : encode i j < buf.length := by
    rw [hlen, mul32_eq_of_small _ hs]
    exact ((visitAt_grid _ hR).2.1 i j hi hj).1
  cases m with
  | mk rk data =>
    simp only at hd
    subst hd
    exact ⟨_, get_mk rk buf i j hin, get_mk rk buf i j hin⟩

/-- C4 (witness): duplication of a rank-2 matrix holding `10, 20, 30, 40`. -/
theorem C4_duplicate_built_witness :
    (matrix.mk 2 (some [10, 20, 30, 40]) : matrix Int).Built ∧
    mul32 2 2 ≤ 4 ∧
    ((∃ d, (matrix.mk 2 (some [10, 20, 30, 40]) : matrix Int).duplicate 4 (fun _ => 0) = .ok d ∧
        d.rank = (matrix.mk 2 (some [10, 20, 30, 40]) : matrix Int).rank ∧
        d._data = (matrix.mk 2 (some [10, 20, 30, 40]) : matrix Int)._data ∧
        (∀ i j, d.get i j = (matrix.mk 2 (some [10, 20, 30, 40]) : matrix Int).get i j) ∧
        ((matrix.mk 2 (some [10, 20, 30, 40]) : matrix Int)._rank < 2 ^ 16 →
          ∀ i j, i < (matrix.mk 2 (some [10, 20, 30, 40]) : matrix Int)._rank →
            j < (matrix.mk 2 (some [10, 20, 30, 40]) : matrix Int)._rank →
            ∃ v, (matrix.mk 2 (some [10, 20, 30, 40]) : matrix Int).get i j = .ok v ∧
              d.get i j = .ok v)) ∧
      (∀ n, (matrix.matrix_empty : matrix Int).duplicate n (fun _ => 0) = .error .assertion)) :=
  ⟨by decide, by decide,
    C4_duplicate_built (matrix.mk 2 (some [10, 20, 30, 40])) (by decide) (fun _ => 0) 4
      (by decide)⟩

/-! ## Invariant of the iterators of a matrix -/

theorem inc_start (it : matrix_iterator) : it.inc._start = it._start := by
  unfold matrix_iterator.inc
  split <;> rfl

theorem inc_end (it : matrix_iterator) : it.inc._end = it._end := by
  unfold matrix_iterator.inc
  split <;> rfl

theorem dec_start (it : matrix_iterator) : it.dec._start = it._start := by
  unfold matrix_iterator.dec
  split <;> rfl

theorem dec_end (it : matrix_iterator) : it.dec._end = it._end := by
  unfold matrix_iterator.dec
  split <;> rfl

theorem inc_p_of_ne (it : matrix_iterator) (h : it._p ≠ it._end) : it.inc._p = it._p + 1 := by
  simp [matrix_iterator.inc, h]

theorem dec_p_of_ne (it : matrix_iterator) (h : it._p ≠ it._start) :
    it.dec._p = it._p - 1 := by
  simp [matrix_iterator.dec, h]

theorem apply_start (s : Step) (it : matrix_iterator) : (s.apply it)._start = it._start := by
  cases s
  · exact inc_start it
  · exact dec_start it

theorem apply_end (s : Step) (it : matrix_iterator) : (s.apply it)._end = it._end := by
  cases s
  · exact inc_end it
  · exact dec_end it

theorem apply_bounds (s : Step) (it : matrix_iterator)
    (h : it._start ≤ it._p ∧ it._p ≤ it._end) :
    (s.apply it)._start ≤ (s.apply it)._p ∧ (s.apply it)._p ≤ (s.apply it)._end := by
  rw [apply_start, apply_end]
  cases s
  · by_cases hp : it._p = it._end
    · rw [Step.apply, inc_at_end it hp]; exact h
    · rw [Step.apply, inc_p_of_ne it hp]; omega
  · by_cases hp : it._p = it._start
    · rw [Step.apply, dec_at_start it hp]; exact h
    · rw [Step.apply, dec_p_of_ne it hp]; omega

theorem steps_frame (l : List Step) :
    ∀ it : matrix_iterator, (steps l it)._start = it._start ∧ (steps l it)._end = it._end := by
  induction l with
  | nil => intro it; exact ⟨rfl, rfl⟩
  | cons s rest ih =>
    intro it
    have h := ih (s.apply it)
    rw [apply_start, apply_end] at h
    exact h

theorem steps_bounds (l : List Step) :
    ∀ it : matrix_iterator, (it._start ≤ it._p ∧ it._p ≤ it._end) →
      (steps l it)._start ≤ (steps l it)._p ∧ (steps l it)._p ≤ (steps l it)._end := by
  induction l with
  | nil => intro it h; exact h
  | cons s rest ih =>
    intro it h
    exact ih (s.apply it) (apply_bounds s it h)

theorem dec_inc_of_bounds (it : matrix_iterator) (hb : it._p ≤ it._end)
    (h : it._p ≠ it._start) : it.dec.inc = it := by
  have h1 : it.dec = { it with _p := it._p - 1 } := by simp [matrix_iterator.dec, h]
  rw [h1]
  have h2 : it._p - 1 ≠ it._end := by omega
  simp [matrix_iterator.inc, h2]

theorem inc_dec_of_bounds (it : matrix_iterator) (hb : it._start ≤ it._p)
    (h : it._p ≠ it._end) : it.inc.dec = it := by
  have h1 : it.inc = { it with _p := it._p + 1 } := by simp [matrix_iterator.inc, h]
  rw [h1]
  have h2 : it._p + 1 ≠ it._start := by omega
  simp [matrix_iterator.dec, h2]

theorem begin_end_bounds {T : Type} (m : matrix T) (buf : List T) (hd : m._data = some buf)
    (h32 : m._rank < 2 ^ 32) (it0 : matrix_iterator)
    (h0 : m.begin = .ok it0 ∨ m.end_ = .ok it0) :
    it0._start = 0 ∧ it0._end = ((m._rank * m._rank : Nat) : Int) ∧
      it0._start ≤ it0._p ∧ it0._p ≤ it0._end := by
  have hle := mul32_le_mul64 m._rank h32
  rw [mul64_eq _ h32] at hle
  rcases h0 with h | h
  · rw [begin_of_data m buf hd, mul64_eq _ h32] at h
    cases h
    refine ⟨rfl, rfl, le_refl _, ?_⟩
    simp only
    omega
  · rw [end_of_data m buf hd, mul64_eq _ h32] at h
    cases h
    refine ⟨rfl, rfl, ?_, ?_⟩
    · simp only
      omega
    · simp only
      omega

theorem steps_of_matrix {T : Type} (m : matrix T) (buf : List T) (hd : m._data = some buf)
    (h32 : m._rank < 2 ^ 32) (it0 : matrix_iterator)
    (h0 : m.begin = .ok it0 ∨ m.end_ = .ok it0) (l : List Step) :
    (steps l it0)._start = 0 ∧ (steps l it0)._end = ((m._rank * m._rank : Nat) : Int) ∧
      0 ≤ (steps l it0)._p ∧ (steps l it0)._p ≤ ((m._rank * m._rank : Nat) : Int) := by
  obtain ⟨hs, he, h1, h2⟩ := begin_end_bounds m buf hd h32 it0 h0
  have hf := steps_frame l it0
  have hb := steps_bounds l it0 ⟨h1, h2⟩
  rw [hf.1, hf.2, hs, he] at hb
  exact ⟨by rw [hf.1, hs], by rw [hf.2, he], hb.1, hb.2⟩

theorem x_eq_xWith (it : matrix_iterator) : it.x = it.xWith decode := rfl

theorem y_eq_yWith (it : matrix_iterator) : it.y = it.yWith decode := rfl

/-- C12: for every 32-bit unsigned rank value, `size()` returns the exact
natural-number product `rank * rank`, which fits in 64 bits, so the 64-bit
multiplication does not wrap. -/
theorem C12_size_exact {T : Type} (m : matrix T) (h32 : m._rank < 2 ^ 32) :
    m.size = m.rank * m.rank ∧ m.rank * m.rank < 2 ^ 64 := by
  have h : m._rank * m._rank < 2 ^ 32 * 2 ^ 32 := Nat.mul_lt_mul'' h32 h32
  refine ⟨mul64_eq _ h32, ?_⟩
  have e : (2 : Nat) ^ 32 * 2 ^ 32 = 2 ^ 64 := by norm_num
  rw [e] at h
  exact h

/-- C12 (witness): the largest 32-bit rank. -/
theorem C12_size_exact_witness :
    (matrix.mk 4294967295 none : matrix Int)._rank < 2 ^ 32 ∧
    ((matrix.mk 4294967295 none : matrix Int).size
        = (matrix.mk 4294967295 none : matrix Int).rank
          * (matrix.mk 4294967295 none : matrix Int).rank ∧
      (matrix.mk 4294967295 none : matrix Int).rank
          * (matrix.mk 4294967295 none : matrix Int).rank < 2 ^ 64) :=
  ⟨by decide, C12_size_exact (matrix.mk 4294967295 none) (by decide)⟩

/-- C13: for every iterator whose position is not the end position,
pre-increment moves the position forward by exactly one storage slot, and for
every iterator whose position is not the start position, pre-decrement moves it
back by exactly one slot; at the end position pre-increment, and at the start
position pre-decrement, leave the position where it is; in all four cases the
start and end bounds of the iterator are unchanged. -/
theorem C13_step_frame (it : matrix_iterator) :
    (it._p ≠ it._end → it.inc._p = it._p + 1) ∧
    (it._p ≠ it._start → it.dec._p = it._p - 1) ∧
    (it._p = it._end → it.inc._p = it._p) ∧
    (it._p = it._start → it.dec._p = it._p) ∧
    it.inc._start = it._start ∧ it.inc._end = it._end ∧
    it.dec._start = it._start ∧ it.dec._end = it._end :=
  ⟨inc_p_of_ne it, dec_p_of_ne it, fun h => by rw [inc_at_end it h],
    fun h => by rw [dec_at_start it h], inc_start it, inc_end it, dec_start it, dec_end it⟩

/-- C13 (witness): an iterator at offset 3 of 4, neither at its start nor at
its end. -/
theorem C13_step_frame_witness :
    ({ _start := 0, _p := 3, _end := 4 } : matrix_iterator)._p ≠ ({ _start := 0, _p := 3, _end := 4 } : matrix_iterator)._end ∧
    ({ _start := 0, _p := 3, _end := 4 } : matrix_iterator).inc._p = ({ _start := 0, _p := 3, _end := 4 } : matrix_iterator)._p + 1 ∧
    ({ _start := 0, _p := 3, _end := 4 } : matrix_iterator)._p ≠ ({ _start := 0, _p := 3, _end := 4 } : matrix_iterator)._start ∧
    ({ _start := 0, _p := 3, _end := 4 } : matrix_iterator).dec._p = ({ _start := 0, _p := 3, _end := 4 } : matrix_iterator)._p - 1 :=
  ⟨by decide, (C13_step_frame ({ _start := 0, _p := 3, _end := 4 } : matrix_iterator)).1 (by decide), by decide,
    (C13_step_frame ({ _start := 0, _p := 3, _end := 4 } : matrix_iterator)).2.1 (by decide)⟩

/-! ## Coordinates of the current element -/

/-- On a matrix built with a rank below `2^16`, an iterator over the matrix
compares unequal to `end()` exactly when its position is not its end
position. -/
theorem ne_end_iff_of_small {T : Type} (m : matrix T) (hb : m.Built) (hs : m._rank < 2 ^ 16)
    (l : List Step) (it0 e : matrix_iterator) (h0 : m.begin = .ok it0 ∨ m.end_ = .ok it0)
    (he : m.end_ = .ok e) :
    (steps l it0).ne e = true ↔ (steps l it0)._p ≠ (steps l it0)._end := by
  obtain ⟨h32, _, buf, hd, _⟩ := built_elim hb
  obtain ⟨_, hend, _, _⟩ := steps_of_matrix m buf hd h32 it0 h0 l
  rw [end_of_data m buf hd, mul32_eq_of_small _ hs, mul64_eq _ h32] at he
  cases he
  rw [hend]
  simp [matrix_iterator.ne, matrix_iterator.eq]

/-- C16: after move-construction or move-assignment from a matrix `s`, the
destination's `rank()` equals the rank `s` had before the move, its buffer is
the buffer `s` held (the same elements in the same storage order), and `s` is
left holding no buffer; the rank field of `s` keeps its value, and the buffer
the destination of an assignment held before is released. -/
theorem C16_move_transfers_buffer (T : Type) (s d : matrix T) :
    (s.move_construct.1.rank = s.rank ∧ s.move_construct.1._data = s._data ∧
      s.move_construct.2._data = none ∧ s.move_construct.2.rank = s.rank) ∧
    ((d.move_assign s).1.rank = s.rank ∧ (d.move_assign s).1._data = s._data ∧
      (d.move_assign s).2.1._data = none ∧ (d.move_assign s).2.1.rank = s.rank ∧
      (d.move_assign s).2.2 = d._data) :=
  ⟨⟨rfl, rfl, rfl, rfl⟩, ⟨rfl, rfl, rfl, rfl, rfl⟩⟩

/-! ## Iterators over 64-bit addresses -/

theorem ptrAdd_of_lt (sz p k : Nat) (h : p + k * sz < 2 ^ 64) : ptrAdd sz p k = p + k * sz := by
  unfold ptrAdd
  exact Nat.mod_eq_of_lt h

theorem ptrSub_of_le (sz a k : Nat) (hk : 0 < k) (h : a + k * sz < 2 ^ 64) :
    ptrSub sz (a + k * sz) 1 = a + (k - 1) * sz := by
  unfold ptrSub
  obtain ⟨j, rfl⟩ : ∃ j, k = j + 1 := ⟨k - 1, by omega⟩
  have e : (j + 1) * sz = j * sz + sz := by ring
  rw [e] at h ⊢
  have hsz : 1 * sz % 2 ^ 64 = sz := by
    rw [Nat.one_mul]
    exact Nat.mod_eq_of_lt (by omega)
  rw [hsz]
  have e2 : a + (j * sz + sz) + 2 ^ 64 - sz = a + j * sz + 2 ^ 64 := by omega
  rw [e2, Nat.add_mod_right]
  simp only [Nat.add_sub_cancel]
  exact Nat.mod_eq_of_lt (by omega)

theorem ptrDiff_of_offset (sz a k : Nat) (hsz : 0 < sz) (ha : a + k * sz < 2 ^ 64)
    (hk : k * sz < 2 ^ 63) : ptrDiff sz (a + k * sz) a = .ok (k : Int) := by
  have ha64 : a < 2 ^ 64 := by omega
  have hd : (a + k * sz + 2 ^ 64 - a % 2 ^ 64) % 2 ^ 64 = k * sz := by
    rw [Nat.mod_eq_of_lt ha64]
    have e : a + k * sz + 2 ^ 64 - a = k * sz + 2 ^ 64 := by omega
    rw [e, Nat.add_mod_right]
    exact Nat.mod_eq_of_lt (by omega)
  have hs : toSigned64 (k * sz) = ((k * sz : Nat) : Int) := by
    unfold toSigned64
    rw [if_pos hk]
  unfold ptrDiff
  rw [hd, hs]
  have hdvd : (sz : Int) ∣ ((k * sz : Nat) : Int) := by
    push_cast
    exact Dvd.intro_left _ rfl
  rw [if_pos hdvd]
  congr 1
  push_cast
  exact Int.mul_tdiv_cancel _ (by omega)

theorem offset_inj (sz a j k : Nat) (hsz : 0 < sz) : a + j * sz = a + k * sz ↔ j = k := by
  constructor
  · intro h
    have h2 : j * sz = k * sz := by omega
    exact Nat.eq_of_mul_eq_mul_right hsz h2
  · intro h; rw [h]

theorem offset_mono (sz k N : Nat) (h : k ≤ N) : k * sz ≤ N * sz :=
  Nat.mul_le_mul_right sz h

theorem inc64_at (sz a k N : Nat) (hsz : 0 < sz) (hk : k ≤ N) (hfit : a + N * sz < 2 ^ 64) :
    matrix_iterator64.inc sz ⟨a, a + k * sz, a + N * sz⟩
      = ⟨a, a + (if k = N then k else k + 1) * sz, a + N * sz⟩ := by
  unfold matrix_iterator64.inc
  by_cases h : k = N
  · subst h; simp
  · have hne : a + k * sz ≠ a + N * sz := fun he => h ((offset_inj sz a k N hsz).mp he)
    have hm := offset_mono sz (k + 1) N (by omega)
    have e : (k + 1) * sz = k * sz + sz := by ring
    have hadd : ptrAdd sz (a + k * sz) 1 = a + (k + 1) * sz := by
      rw [ptrAdd_of_lt _ _ _ (by omega)]
      omega
    simp only [if_neg h]
    rw [if_pos hne, hadd]

theorem dec64_at (sz a k N : Nat) (hsz : 0 < sz) (hk : k ≤ N) (hfit : a + N * sz < 2 ^ 64) :
    matrix_iterator64.dec sz ⟨a, a + k * sz, a + N * sz⟩
      = ⟨a, a + (k - 1) * sz, a + N * sz⟩ := by
  unfold matrix_iterator64.dec
  by_cases h : k = 0
  · subst h; simp
  · have hne : a + k * sz ≠ a := by
      intro he
      have : a + k * sz = a + 0 * sz := by omega
      exact h ((offset_inj sz a k 0 hsz).mp this)
    have hm := offset_mono sz k N hk
    rw [if_pos hne, ptrSub_of_le sz a k (by omega) (by omega)]

theorem toAddresses_mk (sz a k N : Nat) :
    matrix_iterator.toAddresses sz a ⟨0, (k : Int), (N : Int)⟩
      = ⟨a, a + k * sz, a + N * sz⟩ := by
  simp [matrix_iterator.toAddresses]

theorem inc_offsets (k N : Nat) (hk : k ≤ N) :
    matrix_iterator.inc ⟨0, (k : Int), (N : Int)⟩
      = ⟨0, ((if k = N then k else k + 1 : Nat) : Int), (N : Int)⟩ := by
  unfold matrix_iterator.inc
  by_cases h : k = N
  · subst h; simp
  · have hne : (k : Int) ≠ (N : Int) := by omega
    simp only [if_neg h]
    rw [if_pos hne]
    push_cast
    rfl

theorem dec_offsets (k N : Nat) :
    matrix_iterator.dec ⟨0, (k : Int), (N : Int)⟩ = ⟨0, ((k - 1 : Nat) : Int), (N : Int)⟩ := by
  unfold matrix_iterator.dec
  by_cases h : k = 0
  · subst h; simp
  · have hne : (k : Int) ≠ 0 := by omega
    rw [if_pos hne]
    have e : ((k - 1 : Nat) : Int) = (k : Int) - 1 := by omega
    rw [e]

/-- One step on element offsets and the same step on addresses agree, and the
step keeps the position between the start and the end. -/
theorem apply64_toAddresses (sz a N : Nat) (hsz : 0 < sz) (hfit : a + N * sz < 2 ^ 64)
    (s : Step) (k : Nat) (hk : k ≤ N) :
    ∃ k', k' ≤ N ∧ s.apply ⟨0, (k : Int), (N : Int)⟩ = ⟨0, (k' : Int), (N : Int)⟩ ∧
      s.apply64 sz ⟨a, a + k * sz, a + N * sz⟩ = ⟨a, a + k' * sz, a + N * sz⟩ := by
  cases s
  · refine ⟨if k = N then k else k + 1, ?_, inc_offsets k N hk, inc64_at sz a k N hsz hk hfit⟩
    split <;> omega
  · exact ⟨k - 1, by omega, dec_offsets k N, dec64_at sz a k N hsz hk hfit⟩

theorem steps64_offsets (sz a N : Nat) (hsz : 0 < sz) (hfit : a + N * sz < 2 ^ 64)
    (l : List Step) :
    ∀ k, k ≤ N →
      ∃ k', k' ≤ N ∧ steps l ⟨0, (k : Int), (N : Int)⟩ = ⟨0, (k' : Int), (N : Int)⟩ ∧
        steps64 sz l ⟨a, a + k * sz, a + N * sz⟩ = ⟨a, a + k' * sz, a + N * sz⟩ := by
  induction l with
  | nil => intro k hk; exact ⟨k, hk, rfl, rfl⟩
  | cons s rest ih =>
    intro k hk
    obtain ⟨k1, hk1, h1, h2⟩ := apply64_toAddresses sz a N hsz hfit s k hk
    obtain ⟨k2, hk2, h3, h4⟩ := ih k1 hk1
    exact ⟨k2, hk2, by rw [steps, h1, h3], by rw [steps64, h2, h4]⟩

theorem begin64_of_data {T : Type} (m : matrix T) (buf : List T) (hd : m._data = some buf)
    (h32 : m._rank < 2 ^ 32) (sz a : Nat) (ha : 0 < a)
    (hfit : a + m._rank * m._rank * sz < 2 ^ 64) :
    m.begin64 sz a = .ok ⟨a, a + 0 * sz, a + m._rank * m._rank * sz⟩ := by
  unfold matrix.begin64 matrix_iterator64.construct matrix.data64
  rw [hd, mul64_eq _ h32]
  simp only [Nat.zero_le, if_true]
  rw [if_pos (by omega), ptrAdd_of_lt _ _ _ (by omega), ptrAdd_of_lt _ _ _ hfit]

theorem end64_of_data {T : Type} (m : matrix T) (buf : List T) (hd : m._data = some buf)
    (h32 : m._rank < 2 ^ 32) (sz a : Nat) (ha : 0 < a)
    (hfit : a + m._rank * m._rank * sz < 2 ^ 64) :
    m.end64 sz a = .ok ⟨a, a + mul32 m._rank m._rank * sz, a + m._rank * m._rank * sz⟩ := by
  have hle := mul32_le_mul64 m._rank h32
  rw [mul64_eq _ h32] at hle
  have hm := offset_mono sz _ _ hle
  unfold matrix.end64 matrix_iterator64.construct matrix.data64
  rw [hd, mul64_eq _ h32]
  simp only [le_refl, if_true]
  rw [if_pos (by omega), ptrAdd_of_lt _ _ _ (by omega), ptrAdd_of_lt _ _ _ hfit]

theorem x64_of_offset (sz a k N : Nat) (hsz : 0 < sz) (hk : k ≤ N)
    (hfit : a + N * sz < 2 ^ 64) (hdiff : N * sz < 2 ^ 63) :
    matrix_iterator64.x sz ⟨a, a + k * sz, a + N * sz⟩ = .ok (decode k).1 ∧
    matrix_iterator64.y sz ⟨a, a + k * sz, a + N * sz⟩ = .ok (decode k).2 := by
  have hm := offset_mono sz k N hk
  have hd := ptrDiff_of_offset sz a k hsz (by omega) (by omega)
  constructor
  · simp [matrix_iterator64.x, hd]
  · simp [matrix_iterator64.y, hd]

/-- Exactness of the element offsets.  For a matrix that holds a buffer at a
non-null address `a`, with elements of `sz > 0` bytes, such that
`a + rank*rank*sz` is inside the 64-bit address space: `begin()` and `end()` on
addresses are the addresses of `begin()` and `end()` on offsets, every sequence
of pre-increments and pre-decrements on addresses yields the addresses of the
same sequence on offsets, and when moreover `rank*rank*sz < 2^63` the members
`x()` and `y()` agree. -/
theorem steps64_toAddresses {T : Type} (m : matrix T) (buf : List T) (hd : m._data = some buf)
    (h32 : m._rank < 2 ^ 32) (sz a : Nat) (hsz : 0 < sz) (ha : 0 < a)
    (hfit : a + m._rank * m._rank * sz < 2 ^ 64) (l : List Step) :
    ∃ b e, m.begin = .ok b ∧ m.end_ = .ok e ∧
      m.begin64 sz a = .ok (b.toAddresses sz a) ∧
      m.end64 sz a = .ok (e.toAddresses sz a) ∧
      ∀ it0, it0 = b ∨ it0 = e →
        steps64 sz l (it0.toAddresses sz a) = (steps l it0).toAddresses sz a ∧
        (m._rank * m._rank * sz < 2 ^ 63 →
          (steps64 sz l (it0.toAddresses sz a)).x sz = (steps l it0).x ∧
          (steps64 sz l (it0.toAddresses sz a)).y sz = (steps l it0).y) := by
  have hle := mul32_le_mul64 m._rank h32
  rw [mul64_eq _ h32] at hle
  have hb := begin_of_data m buf hd
  have he := end_of_data m buf hd
  rw [mul64_eq _ h32] at hb he
  have hb0 : (⟨0, 0, ((m._rank * m._rank : Nat) : Int)⟩ : matrix_iterator)
      = ⟨0, ((0 : Nat) : Int), ((m._rank * m._rank : Nat) : Int)⟩ := by simp
  rw [hb0] at hb
  refine ⟨_, _, hb, he, ?_, ?_, ?_⟩
  · rw [toAddresses_mk]
    exact begin64_of_data m buf hd h32 sz a ha hfit
  · rw [toAddresses_mk]
    exact end64_of_data m buf hd h32 sz a ha hfit
  · intro it0 h0
    have key : ∀ k : Nat, k ≤ m._rank * m._rank →
        steps64 sz l (matrix_iterator.toAddresses sz a
            ⟨0, (k : Int), ((m._rank * m._rank : Nat) : Int)⟩)
          = (steps l ⟨0, (k : Int), ((m._rank * m._rank : Nat) : Int)⟩).toAddresses sz a ∧
        (m._rank * m._rank * sz < 2 ^ 63 →
          (steps64 sz l (matrix_iterator.toAddresses sz a
              ⟨0, (k : Int), ((m._rank * m._rank : Nat) : Int)⟩)).x sz
            = (steps l ⟨0, (k : Int), ((m._rank * m._rank : Nat) : Int)⟩).x ∧
          (steps64 sz l (matrix_iterator.toAddresses sz a
              ⟨0, (k : Int), ((m._rank * m._rank : Nat) : Int)⟩)).y sz
            = (steps l ⟨0, (k : Int), ((m._rank * m._rank : Nat) : Int)⟩).y) := by
      intro k hk
      obtain ⟨k', hk', h1, h2⟩ := steps64_offsets sz a _ hsz hfit l k hk
      rw [toAddresses_mk, h1, h2, toAddresses_mk]
      refine ⟨rfl, fun hdiff => ?_⟩
      have hx := x64_of_offset sz a k' _ hsz hk' hfit hdiff
      rw [hx.1, hx.2, x_natCast, y_natCast]
      exact ⟨rfl, rfl⟩
    rcases h0 with h | h
    · rw [h]; exact key 0 (Nat.zero_le _)
    · rw [h]; exact key _ hle

end morton

namespace vector_ex

/-! ## Facts about the vector exercise -/

theorem tmod_two_eq_zero_iff (n : Int) : Int.tmod n 2 = 0 ↔ 2 ∣ n :=
  Int.dvd_iff_tmod_eq_zero.symm

theorem foldl_push_eq_filter (l : List Int) :
    ∀ acc : List Int,
      l.foldl (fun evens num => if Int.tmod num 2 = 0 then evens ++ [num] else evens) acc
        = acc ++ l.filter (fun n => decide (2 ∣ n)) := by
  induction l with
  | nil => intro acc; simp
  | cons x rest ih =>
    intro acc
    rw [List.foldl_cons, ih]
    by_cases hx : Int.tmod x 2 = 0
    · have hd : 2 ∣ x := (tmod_two_eq_zero_iff x).mp hx
      simp [hx, hd]
    · have hd : ¬ 2 ∣ x := fun h => hx ((tmod_two_eq_zero_iff x).mpr h)
      simp [hx, hd]

theorem getEven_eq_filter (source : List Int) :
    GetEven source = source.filter (fun n => decide (2 ∣ n)) := by
  unfold GetEven
  rw [foldl_push_eq_filter]
  simp

/-- C17: for every vector of ints, negative values included (the test
`num % 2 == 0` with the truncating remainder of C++ holds exactly for the
multiples of 2), `GetEven` returns exactly the subsequence of the elements
divisible by 2, in their original order and with their multiplicities; every
element of the result is even, no even element of the source is dropped, and
applying `GetEven` to its own result changes nothing. -/
theorem C17_GetEven_filters_even (source : List Int) :
    (∀ n : Int, Int.tmod n 2 = 0 ↔ 2 ∣ n) ∧
    GetEven source = source.filter (fun n => decide (2 ∣ n)) ∧
    List.Sublist (GetEven source) source ∧
    (∀ x ∈ GetEven source, 2 ∣ x) ∧
    (∀ x ∈ source, 2 ∣ x → x ∈ GetEven source) ∧
    (∀ x, 2 ∣ x → (GetEven source).count x = source.count x) ∧
    GetEven (GetEven source) = GetEven source := by
  refine ⟨tmod_two_eq_zero_iff, getEven_eq_filter source, ?_, ?_, ?_, ?_, ?_⟩
  · rw [getEven_eq_filter]
    exact List.filter_sublist _
  · intro x hx
    rw [getEven_eq_filter, List.mem_filter] at hx
    simpa using hx.2
  · intro x hx hd
    rw [getEven_eq_filter, List.mem_filter]
    exact ⟨hx, by simpa using hd⟩
  · intro x hd
    rw [getEven_eq_filter, List.count_filter]
    simpa using hd
  · rw [getEven_eq_filter, getEven_eq_filter, List.filter_filter]
    simp

theorem intercalate_go_append (sep p : String) (l : List String) :
    ∀ acc : String, String.intercalate.go (p ++ acc) sep l
      = p ++ String.intercalate.go acc sep l := by
  induction l with
  | nil => intro acc; rfl
  | cons a rest ih =>
    intro acc
    simp only [String.intercalate.go]
    rw [String.append_assoc p acc sep, String.append_assoc p (acc ++ sep) a, ih]

theorem intercalate_cons_cons (sep a b : String) (l : List String) :
    sep.intercalate (a :: b :: l) = a ++ sep ++ sep.intercalate (b :: l) := by
  simp only [String.intercalate, String.intercalate.go]
  exact intercalate_go_append sep (a ++ sep) l b

theorem printLoop_output (n : Nat) :
    ∀ (rest : List Int) (x : Int) (i : Nat) (st : String × List Access),
      i + (rest.length + 1) = n →
      (printLoop n (x :: rest) i st).1
        = st.1 ++ ", ".intercalate ((x :: rest).map toString) := by
  intro rest
  induction rest with
  | nil =>
    intro x i st hi
    have h : (i : Int) = (n : Int) - 1 := by simp at hi; omega
    simp [printLoop, h, String.intercalate, String.intercalate.go]
  | cons y rest ih =>
    intro x i st hi
    have h : ¬ (i : Int) = (n : Int) - 1 := by simp at hi; omega
    rw [printLoop, if_neg h, ih y (i + 1) _ (by simp at hi ⊢; omega)]
    simp only [List.map_cons]
    rw [intercalate_cons_cons]
    simp only [String.append_assoc]

theorem printLoop_explicit (n : Nat) :
    ∀ (init : List Int) (last : Int) (i : Nat) (st : String × List Access),
      i + (init.length + 1) = n →
      (printLoop n (init ++ [last]) i st).1
        = init.foldl (fun acc x => acc ++ toString x ++ ", ") st.1 ++ toString last := by
  intro init
  induction init with
  | nil =>
    intro last i st hi
    have h : (i : Int) = (n : Int) - 1 := by simp at hi; omega
    simp [printLoop, h]
  | cons y rest ih =>
    intro last i st hi
    have h : ¬ (i : Int) = (n : Int) - 1 := by simp at hi; omega
    rw [List.cons_append, printLoop, if_neg h, ih last (i + 1) _ (by simp at hi ⊢; omega)]
    rfl

theorem printLoop_accesses (n : Nat) :
    ∀ (data : List Int) (i : Nat) (st : String × List Access),
      i + data.length = n →
      ∀ a ∈ (printLoop n data i st).2, a ∈ st.2 ∨
        (∃ j : Nat, a = .deref j ∧ j < n) ∨ (a = .endMinusOne ((n : Int) - 1) ∧ 0 < n) := by
  intro data
  induction data with
  | nil => intro i st _ a ha; exact Or.inl ha
  | cons x rest ih =>
    intro i st hi a ha
    simp only [List.length_cons] at hi
    have key : ∀ st' : String × List Access,
        st'.2 = st.2 ++ [.endMinusOne ((n : Int) - 1), .deref i] →
        a ∈ (printLoop n rest (i + 1) st').2 → a ∈ st.2 ∨
          (∃ j : Nat, a = .deref j ∧ j < n) ∨ (a = .endMinusOne ((n : Int) - 1) ∧ 0 < n) := by
      intro st' hst' ha'
      rcases ih (i + 1) st' (by omega) a ha' with h | h | h
      · rw [hst'] at h
        simp only [List.mem_append, List.mem_cons, List.mem_singleton, List.not_mem_nil,
          or_false] at h
        rcases h with h | h | h
        · exact Or.inl h
        · exact Or.inr (Or.inr ⟨h, by omega⟩)
        · exact Or.inr (Or.inl ⟨i, h, by omega⟩)
      · exact Or.inr (Or.inl h)
      · exact Or.inr (Or.inr h)
    rw [printLoop] at ha
    split at ha
    · exact key _ rfl ha
    · exact key _ rfl ha

/-- C18: for every vector of ints, `PrintVectorOfInt` appends to the output
exactly the string `"[ "` followed by the decimal renderings of the elements
joined by `", "` followed by `"]"`; for the empty vector the output is `"[ ]"`
and the vector is not used at all (neither `*it` nor `data.end()-1` is
evaluated); every element but the last is followed by the separator and the
last one directly by `"]"`; every dereference is at a position inside the
vector and `data.end()-1` is only formed for a non-empty vector. -/
theorem C18_PrintVectorOfInt_output (output : String) (data : List Int) :
    (PrintVectorOfInt output data).1
      = output ++ "[ " ++ ", ".intercalate (data.map toString) ++ "]" ∧
    PrintVectorOfInt output [] = (output ++ "[ ]", []) ∧
    (∀ (init : List Int) (last : Int),
      (PrintVectorOfInt output (init ++ [last])).1
        = init.foldl (fun acc x => acc ++ toString x ++ ", ") (output ++ "[ ")
            ++ toString last ++ "]") ∧
    (∀ a ∈ (PrintVectorOfInt output data).2,
      (∃ j : Nat, a = .deref j ∧ j < data.length) ∨
      (a = .endMinusOne ((data.length : Int) - 1) ∧ 0 < data.length)) := by
  refine ⟨?_, ?_, ?_, ?_⟩
  · cases data with
    | nil => simp [PrintVectorOfInt, printLoop, String.intercalate]
    | cons x rest =>
      simp only [PrintVectorOfInt]
      rw [printLoop_output (x :: rest).length rest x 0 _ (by simp)]
  · simp only [PrintVectorOfInt, printLoop, List.length_nil, String.append_assoc]
    rfl
  · intro init last
    simp only [PrintVectorOfInt]
    rw [printLoop_explicit (init ++ [last]).length init last 0 _ (by simp)]
  · intro a ha
    simp only [PrintVectorOfInt] at ha
    rcases printLoop_accesses data.length data 0 _ (by omega) a ha with h | h | h
    · simp at h
    · exact Or.inl h
    · exact Or.inr h

end vector_ex
